import Mathlib

/-!
Verification of the maze-solver search core (`src/2.py`): grid loading,
frontier disciplines (stack / queue / binary-heap priority), and the
generic graph-search loop `Maze.solve` with its four algorithm modes
`bfs`, `dfs`, `greedy`, `astar`.

The embedding mirrors the Python source:
* positions are pairs of integers `(x, y)`;
* `load_maze` maps `line.strip()` over the input lines;
* `find_position` scans rows top to bottom, cells left to right;
* `is_valid` checks bounds and then indexes the grid (a ragged grid can
  raise an index error, modelled with `Except`);
* the solver raises `ValueError` for unknown algorithm names
  (`Err.unknownAlgorithm`), `Exception "empty frontier"` on removal from
  an empty frontier (`Err.emptyFrontier`), and a `TypeError` when a start
  or goal marker is missing (unpacking `None` in `heuristic`,
  `Err.typeError`);
* the Python `while` loop is given explicit fuel; running out of fuel is
  `Err.outOfFuel`, proved unreachable for well-formed mazes;
* the heap of `PriorityFrontier` stores `(cost + heuristic, counter, node)`
  triples; `heapq.heappop` returns the least triple under lexicographic
  tuple comparison, and since counters are pairwise distinct the node
  component is never compared, so popping the unique lexicographic
  minimum of `(priority, counter)` is the exact behaviour.
-/

namespace MazeLab

set_option maxHeartbeats 1000000

abbrev Pos := Int × Int

/-- Errors a run of the Python code can raise. -/
inductive Err where
  | indexError
  | typeError
  | unknownAlgorithm
  | emptyFrontier
  | outOfFuel
deriving DecidableEq, Repr

/-- Python whitespace characters removed by `str.strip()`. -/
def isPyWs (c : Char) : Bool :=
  c = ' ' ∨ c = '\t' ∨ c = '\n' ∨ c = '\r' ∨ c = '\x0b' ∨ c = '\x0c'

/-- `str.strip()` on a list of characters: drop whitespace from both ends. -/
def pyStripL (l : List Char) : List Char :=
  ((l.dropWhile isPyWs).reverse.dropWhile isPyWs).reverse

/-- `load_maze`: each input line becomes `list(line.strip())`. -/
def load_maze (lines : List String) : List (List Char) :=
  lines.map (fun l => pyStripL l.data)

/-- Scan one row left to right for character `c`, returning its x index. -/
def findPosRow : List Char → Char → Int → Option Int
  | [], _, _ => none
  | d :: rest, c, x => if d = c then some x else findPosRow rest c (x + 1)

/-- Scan rows top to bottom; first match wins, as in `find_position`. -/
def findPosAux : List (List Char) → Char → Int → Option Pos
  | [], _, _ => none
  | row :: rest, c, y =>
    match findPosRow row c 0 with
    | some x => some (x, y)
    | none => findPosAux rest c (y + 1)

/-- `Maze.find_position`: coordinates of the first cell equal to `c`. -/
def find_position (g : List (List Char)) (c : Char) : Option Pos :=
  findPosAux g c 0

/-- The fields `Maze.__init__` computes from the file contents. -/
structure Maze where
  grid : List (List Char)
  startPos : Option Pos
  endPos : Option Pos
  width : Nat
  height : Nat
deriving DecidableEq, Repr

/-- `Maze.__init__`: load the grid, locate markers, take `len(grid[0])`
and `len(grid)`.  `grid[0]` on an empty grid raises `IndexError`. -/
def mkMaze (lines : List String) : Except Err Maze :=
  let g := load_maze lines
  match g.head? with
  | none => .error .indexError
  | some r0 => .ok ⟨g, find_position g 'A', find_position g 'B', r0.length, g.length⟩

/-- `Maze.is_valid`: bounds check, then grid lookup (which can raise
`IndexError` on a ragged grid when `x` exceeds the row's length). -/
def is_valid (m : Maze) (x y : Int) : Except Err Bool :=
  if 0 ≤ x ∧ x < (m.width : Int) ∧ 0 ≤ y ∧ y < (m.height : Int) then
    match m.grid.get? y.toNat with
    | none => .error .indexError
    | some row =>
      match row.get? x.toNat with
      | none => .error .indexError
      | some c => .ok (c ≠ '#')
  else
    .ok false

/-- The four move candidates of `Maze.neighbors`, in source order. -/
def candidates (s : Pos) : List (String × Pos) :=
  [("up", (s.1, s.2 - 1)), ("down", (s.1, s.2 + 1)),
   ("left", (s.1 - 1, s.2)), ("right", (s.1 + 1, s.2))]

/-- Keep the candidates that `is_valid` accepts, left to right. -/
def filterValid (m : Maze) : List (String × Pos) → Except Err (List (String × Pos))
  | [] => .ok []
  | (a, p) :: rest => do
    let b ← is_valid m p.1 p.2
    let r ← filterValid m rest
    .ok (if b then (a, p) :: r else r)

/-- `Maze.neighbors`. -/
def neighbors (m : Maze) (s : Pos) : Except Err (List (String × Pos)) :=
  filterValid m (candidates s)

/-- `Maze.heuristic`: Manhattan distance. -/
def manhattan (a b : Pos) : Nat :=
  (a.1 - b.1).natAbs + (a.2 - b.2).natAbs

/-- Search nodes.  The code creates exactly two shapes: the root
(`parent=None`, `action=None`) and children with a parent and an action. -/
inductive Node where
  | root (state : Pos) (cost : Nat) (heuristic : Nat)
  | child (state : Pos) (parent : Node) (action : String) (cost : Nat) (heuristic : Nat)
deriving DecidableEq, Repr

def Node.state : Node → Pos
  | .root s _ _ => s
  | .child s _ _ _ _ => s

def Node.cost : Node → Nat
  | .root _ c _ => c
  | .child _ _ _ c _ => c

def Node.heuristic : Node → Nat
  | .root _ _ h => h
  | .child _ _ _ _ h => h

/-- Priority of a heap entry: `node.cost + node.heuristic`. -/
def Node.f (n : Node) : Nat := n.cost + n.heuristic

/-- Heap entries `(cost + heuristic, counter, node)`. -/
abbrev Entry := Nat × Nat × Node

/-- Lexicographic comparison of `(priority, counter)`; the node component
is never reached because counters are pairwise distinct. -/
def entryLe (e1 e2 : Entry) : Bool :=
  e1.1 < e2.1 ∨ (e1.1 = e2.1 ∧ e1.2.1 ≤ e2.2.1)

/-- Extract the least entry under `(priority, counter)`; with distinct
counters this is exactly what `heapq.heappop` returns. -/
def popMin : List Entry → Option (Entry × List Entry)
  | [] => none
  | e :: rest =>
    match popMin rest with
    | none => some (e, [])
    | some (m, rest') => if entryLe e m then some (e, rest) else some (m, e :: rest')

/-- The three frontier classes. -/
inductive Frontier where
  | stack (l : List Node)
  | queue (l : List Node)
  | prio (entries : List Entry) (counter : Nat)
deriving DecidableEq, Repr

/-- `add`: stack and queue append; the priority frontier pushes
`(node.cost + node.heuristic, counter, node)` and increments the counter. -/
def Frontier.add : Frontier → Node → Frontier
  | .stack l, n => .stack (l ++ [n])
  | .queue l, n => .queue (l ++ [n])
  | .prio es c, n => .prio (es ++ [(n.f, c, n)]) (c + 1)

/-- `contains_state`: linear scan over resident nodes. -/
def Frontier.containsState : Frontier → Pos → Bool
  | .stack l, s => l.any (fun n => n.state = s)
  | .queue l, s => l.any (fun n => n.state = s)
  | .prio es _, s => es.any (fun e => e.2.2.state = s)

/-- `empty`. -/
def Frontier.isEmpty : Frontier → Bool
  | .stack l => l.isEmpty
  | .queue l => l.isEmpty
  | .prio es _ => es.isEmpty

/-- `remove`: stack takes the last node, queue the first, priority the heap
minimum; all three raise on an empty frontier. -/
def Frontier.remove : Frontier → Except Err (Node × Frontier)
  | .stack l =>
    match l.getLast? with
    | none => .error .emptyFrontier
    | some n => .ok (n, .stack l.dropLast)
  | .queue l =>
    match l with
    | [] => .error .emptyFrontier
    | n :: rest => .ok (n, .queue rest)
  | .prio es c =>
    match popMin es with
    | none => .error .emptyFrontier
    | some (e, rest) => .ok (e.2.2, .prio rest c)

/-- The resident nodes of a frontier. -/
def Frontier.nodes : Frontier → List Node
  | .stack l => l
  | .queue l => l
  | .prio es _ => es.map (fun e => e.2.2)

/-- Build the child node for one neighbor, per algorithm. -/
def mkChild (e : Pos) (alg : String) (node : Node) (a : String) (s : Pos) : Node :=
  let cost := node.cost + 1
  if alg = "greedy" then .child s node a 0 (manhattan s e)
  else if alg = "astar" then .child s node a cost (manhattan s e)
  else .child s node a cost 0

/-- The inner `for` loop of `solve`: try each neighbor in order against the
current explored set and the evolving frontier. -/
def expand (e : Pos) (alg : String) (node : Node) (explored : List Pos) :
    List (String × Pos) → Frontier → Frontier
  | [], fr => fr
  | (a, s) :: rest, fr =>
    if !(explored.contains s) && !(fr.containsState s) then
      expand e alg node explored rest (fr.add (mkChild e alg node a s))
    else
      expand e alg node explored rest fr

/-- Walk parent links from a goal node; the Python code collects states
goal-first and reverses, so the root's state is excluded. -/
def chainCells : Node → List Pos
  | .root _ _ _ => []
  | .child s p _ _ _ => chainCells p ++ [s]

/-- The `while not frontier.empty()` loop, with explicit fuel.  Returns the
search result together with the final explored set. -/
def solveLoop (m : Maze) (e : Pos) (alg : String) :
    Nat → Frontier → List Pos → Except Err (Option (List Pos) × List Pos)
  | 0, _, _ => .error .outOfFuel
  | fuel + 1, fr, explored =>
    if fr.isEmpty then .ok (none, explored)
    else do
      let (node, fr') ← fr.remove
      if node.state = e then .ok (some (chainCells node), explored)
      else
        let explored' := explored.insert node.state
        let nbrs ← neighbors m node.state
        solveLoop m e alg fuel (expand e alg node explored' nbrs fr') explored'

/-- The frontier selected for each algorithm name; any other name raises
`ValueError` (`Err.unknownAlgorithm`). -/
def initialFrontier (alg : String) : Except Err Frontier :=
  if alg = "bfs" then .ok (.queue [])
  else if alg = "dfs" then .ok (.stack [])
  else if alg = "greedy" ∨ alg = "astar" then .ok (.prio [] 0)
  else .error .unknownAlgorithm

/-- Fuel that always suffices: one loop iteration per grid cell, plus slack. -/
def Maze.fuel (m : Maze) : Nat :=
  (m.grid.map List.length).sum + 2

/-- `Maze.solve` for a maze whose two markers were found at `s` and `e`:
build the root (its heuristic is computed before the algorithm dispatch),
pick the frontier, and run the loop. -/
def solveCore (m : Maze) (s e : Pos) (alg : String) :
    Except Err (Option (List Pos) × List Pos) := do
  let rootNode : Node := .root s 0 (manhattan s e)
  let fr0 ← initialFrontier alg
  solveLoop m e alg m.fuel (fr0.add rootNode) []

/-- `Maze.solve`: if either marker is missing, `self.heuristic(self.start)`
unpacks `None` and raises a `TypeError` before anything else happens. -/
def Maze.solve (m : Maze) (alg : String) : Except Err (Option (List Pos)) :=
  match m.startPos, m.endPos with
  | some s, some e => (solveCore m s e alg).map Prod.fst
  | _, _ => .error .typeError

/-! ### Lemmas about `str.strip()` -/

lemma dropWhile_append_of_all {ws s : List Char} (h : ∀ c ∈ ws, isPyWs c = true) :
    (ws ++ s).dropWhile isPyWs = s.dropWhile isPyWs := by
  rw [List.dropWhile_append, List.dropWhile_eq_nil_iff.2 h]
  rfl

lemma dropWhile_eq_self_of_head {l : List Char}
    (h : ∀ c, l.head? = some c → isPyWs c = false) : l.dropWhile isPyWs = l := by
  cases l with
  | nil => rfl
  | cons c rest => rw [List.dropWhile_cons, h c rfl]; rfl

lemma pyStripL_ws_append {ws s : List Char} (h : ∀ c ∈ ws, isPyWs c = true) :
    pyStripL (ws ++ s) = pyStripL s := by
  unfold pyStripL
  rw [dropWhile_append_of_all h]

lemma pyStripL_all_ws {ws : List Char} (h : ∀ c ∈ ws, isPyWs c = true) :
    pyStripL ws = [] := by
  unfold pyStripL
  rw [List.dropWhile_eq_nil_iff.2 h]
  rfl

lemma pyStripL_no_trim {core : List Char}
    (h1 : ∀ c, core.head? = some c → isPyWs c = false)
    (h2 : ∀ c, core.getLast? = some c → isPyWs c = false) :
    pyStripL core = core := by
  unfold pyStripL
  rw [dropWhile_eq_self_of_head h1, dropWhile_eq_self_of_head (by
    intro c hc
    exact h2 c (by rwa [List.head?_reverse] at hc))]
  exact List.reverse_reverse core

/-- C10: loading strips leading as well as trailing whitespace from every
line: a row `ws ++ core` with whitespace `ws` and a whitespace-free-ended
`core` loads as `core` alone, so cell `i` of the loaded row is cell
`ws.length + i` of the original line (the x-coordinates shift left), and a
line of only whitespace loads as the empty row. -/
theorem claim_c10 (ws core : List Char)
    (hws : ∀ c ∈ ws, isPyWs c = true)
    (h1 : ∀ c, core.head? = some c → isPyWs c = false)
    (h2 : ∀ c, core.getLast? = some c → isPyWs c = false) :
    load_maze [String.mk (ws ++ core)] = [core] ∧
    load_maze [String.mk ws] = [[]] ∧
    ∀ i : Nat, core[i]? = (ws ++ core)[ws.length + i]? := by
  refine ⟨?_, ?_, ?_⟩
  · show [pyStripL (ws ++ core)] = [core]
    rw [pyStripL_ws_append hws, pyStripL_no_trim h1 h2]
  · show [pyStripL ws] = [[]]
    rw [pyStripL_all_ws hws]
  · intro i
    rw [List.getElem?_append_right (Nat.le_add_right _ _), Nat.add_sub_cancel_left]

/-- Witness for C10 on the line `"  A.B "` (leading and trailing blanks). -/
theorem claim_c10_witness :
    load_maze [String.mk ([' ', ' '] ++ ['A', '.', 'B'])] = [['A', '.', 'B']] ∧
    load_maze [String.mk [' ', ' ']] = [[]] ∧
    ∀ i : Nat, (['A', '.', 'B'] : List Char)[i]? =
      ([' ', ' '] ++ ['A', '.', 'B'])[2 + i]? :=
  claim_c10 [' ', ' '] ['A', '.', 'B'] (by decide) (by decide) (by decide)

/-! ### C2: `load` performs no validation at all -/

/-- C2 counterexample: the claim says loading fails with
`MalformedMazeError` when a marker is missing or rows are ragged, but the
code has no such error: a marker-less grid, a goal-less grid, and a ragged
grid all load successfully. -/
theorem claim_c2_counterexample :
    mkMaze ["###"] = .ok ⟨[['#', '#', '#']], none, none, 3, 1⟩ ∧
    mkMaze ["A#"] = .ok ⟨[['A', '#']], some (0, 0), none, 2, 1⟩ ∧
    mkMaze ["#", "##"] = .ok ⟨[['#'], ['#', '#']], none, none, 1, 2⟩ :=
  ⟨rfl, rfl, rfl⟩

/-- C2 (amended): loading never raises a malformed-maze error.  On every
nonempty input — markers present or not, rows rectangular or not — it
returns the grid of stripped lines; the only failure of `Maze.__init__`
is the `IndexError` from `len(self.grid[0])` on an empty input. -/
theorem claim_c2 (lines : List String) (h : lines ≠ []) :
    ∃ mz, mkMaze lines = .ok mz ∧ mz.grid = load_maze lines := by
  cases lines with
  | nil => exact absurd rfl h
  | cons l ls => exact ⟨_, rfl, rfl⟩

/-- Witness for C2 at the marker-less input `["###"]`. -/
theorem claim_c2_witness :
    ∃ mz, mkMaze ["###"] = .ok mz ∧ mz.grid = load_maze ["###"] :=
  claim_c2 ["###"] (by decide)

/-! ### Which errors the search loop itself can produce -/

@[simp] lemma exbind_ok {α β : Type} (a : α) (f : α → Except Err β) :
    (Except.ok a >>= f) = f a := rfl

@[simp] lemma exbind_error {α β : Type} (e : Err) (f : α → Except Err β) :
    ((Except.error e : Except Err α) >>= f) = .error e := rfl

@[simp] lemma exmap_ok {α β : Type} (g : α → β) (a : α) :
    (Except.ok a : Except Err α).map g = .ok (g a) := rfl

@[simp] lemma exmap_error {α β : Type} (g : α → β) (e : Err) :
    (Except.error e : Except Err α).map g = .error e := rfl

lemma is_valid_error {m : Maze} {x y : Int} {e : Err}
    (h : is_valid m x y = .error e) : e = .indexError := by
  unfold is_valid at h
  split at h
  · split at h
    · simp only [Except.error.injEq] at h
      exact h.symm
    · split at h
      · simp only [Except.error.injEq] at h
        exact h.symm
      · exact absurd h (by simp)
  · exact absurd h (by simp)

lemma filterValid_error {m : Maze} {l : List (String × Pos)} {e : Err}
    (h : filterValid m l = .error e) : e = .indexError := by
  induction l with
  | nil => exact absurd h (by simp [filterValid])
  | cons c rest ih =>
    rw [filterValid] at h
    cases hv : is_valid m c.2.1 c.2.2 with
    | error er =>
      rw [hv] at h
      simp only [exbind_error, Except.error.injEq] at h
      exact h ▸ is_valid_error hv
    | ok b =>
      rw [hv] at h
      simp only [exbind_ok] at h
      cases hr : filterValid m rest with
      | error er =>
        rw [hr] at h
        simp only [exbind_error, Except.error.injEq] at h
        rw [h] at hr
        exact ih hr
      | ok r =>
        rw [hr] at h
        exact absurd h (by simp)

lemma neighbors_error {m : Maze} {s : Pos} {e : Err}
    (h : neighbors m s = .error e) : e = .indexError :=
  filterValid_error h

lemma popMin_of_ne_nil {es : List Entry} (h : es ≠ []) :
    ∃ pr, popMin es = some pr := by
  cases es with
  | nil => exact absurd rfl h
  | cons e rest =>
    rw [popMin]
    cases hr : popMin rest with
    | none => exact ⟨_, rfl⟩
    | some pr =>
      obtain ⟨m, rest'⟩ := pr
      by_cases hle : entryLe e m
      · exact ⟨(e, rest), by simp [hle]⟩
      · exact ⟨(m, e :: rest'), by simp [hle]⟩

lemma remove_of_not_empty {fr : Frontier} (h : fr.isEmpty = false) :
    ∃ n fr', fr.remove = .ok (n, fr') := by
  cases fr with
  | stack l =>
    cases hl : l.getLast? with
    | none =>
      rw [List.getLast?_eq_none_iff] at hl
      subst hl
      simp [Frontier.isEmpty] at h
    | some n => exact ⟨n, _, by rw [Frontier.remove, hl]⟩
  | queue l =>
    cases l with
    | nil => simp [Frontier.isEmpty] at h
    | cons n rest => exact ⟨n, _, rfl⟩
  | prio es c =>
    have hne : es ≠ [] := by
      intro hnil
      subst hnil
      simp [Frontier.isEmpty] at h
    obtain ⟨⟨e, rest⟩, hp⟩ := popMin_of_ne_nil hne
    exact ⟨e.2.2, _, by rw [Frontier.remove, hp]⟩

lemma solveLoop_error {m : Maze} {e2 : Pos} {alg : String} :
    ∀ {fuel : Nat} {fr : Frontier} {ex : List Pos} {err : Err},
    solveLoop m e2 alg fuel fr ex = .error err →
    err = .outOfFuel ∨ err = .indexError := by
  intro fuel
  induction fuel with
  | zero =>
    intro fr ex err h
    simp only [solveLoop, Except.error.injEq] at h
    exact Or.inl h.symm
  | succ n ih =>
    intro fr ex err h
    rw [solveLoop] at h
    split at h
    · exact absurd h (by simp)
    · rename_i hne
      obtain ⟨node, fr', hrem⟩ := remove_of_not_empty (by
        cases he : fr.isEmpty with
        | false => rfl
        | true => exact absurd he hne)
      rw [hrem] at h
      simp only [exbind_ok] at h
      split at h
      · exact absurd h (by simp)
      · cases hn : neighbors m node.state with
        | error er =>
          rw [hn] at h
          simp only [exbind_error, Except.error.injEq] at h
          exact Or.inr (h ▸ neighbors_error hn)
        | ok nbrs =>
          rw [hn] at h
          simp only [exbind_ok] at h
          exact ih h

lemma initialFrontier_error {alg : String} {er : Err}
    (h : initialFrontier alg = .error er) : er = .unknownAlgorithm := by
  unfold initialFrontier at h
  split at h
  · exact absurd h (by simp)
  · split at h
    · exact absurd h (by simp)
    · split at h
      · exact absurd h (by simp)
      · simp only [Except.error.injEq] at h
        exact h.symm

/-- C9: the search loop removes only after checking `not frontier.empty()`,
so `EmptyFrontierError` never surfaces from `solve`, for any maze and any
algorithm name. -/
theorem claim_c9 (m : Maze) (alg : String) :
    Maze.solve m alg ≠ .error .emptyFrontier := by
  intro h
  unfold Maze.solve at h
  split at h
  · rename_i s e hs he
    unfold solveCore at h
    cases hi : initialFrontier alg with
    | error er =>
      rw [hi] at h
      simp only [exbind_error, exmap_error, Except.error.injEq] at h
      exact Err.noConfusion (h ▸ initialFrontier_error hi)
    | ok fr0 =>
      rw [hi] at h
      simp only [exbind_ok] at h
      cases hl : solveLoop m e alg m.fuel (fr0.add (.root s 0 (manhattan s e))) [] with
      | error er =>
        rw [hl] at h
        simp only [exmap_error, Except.error.injEq] at h
        rcases solveLoop_error hl with h1 | h1 <;> rw [h] at h1 <;> exact Err.noConfusion h1
      | ok r =>
        rw [hl] at h
        exact absurd h (by simp)
  · simp only [Except.error.injEq] at h
    exact Err.noConfusion h

/-- Witness applying C9 at a concrete maze and algorithm. -/
theorem claim_c9_witness :
    Maze.solve ⟨[['A', '.', 'B']], some (0, 0), some (2, 0), 3, 1⟩ "bfs" ≠
      .error .emptyFrontier :=
  claim_c9 ⟨[['A', '.', 'B']], some (0, 0), some (2, 0), 3, 1⟩ "bfs"

/-! ### C3: algorithm-name dispatch -/

lemma solveCore_error_of_ok {m : Maze} {s e : Pos} {alg : String} {fr0 : Frontier}
    {er : Err} (hi : initialFrontier alg = .ok fr0)
    (h : solveCore m s e alg = .error er) : er = .outOfFuel ∨ er = .indexError := by
  unfold solveCore at h
  rw [hi] at h
  simp only [exbind_ok] at h
  exact solveLoop_error h

lemma solve_eq_core {m : Maze} {s e : Pos} (alg : String)
    (hs : m.startPos = some s) (he : m.endPos = some e) :
    Maze.solve m alg = (solveCore m s e alg).map Prod.fst := by
  unfold Maze.solve
  rw [hs, he]

lemma solve_ne_unknown {m : Maze} {s e : Pos} {alg : String} {fr0 : Frontier}
    (hs : m.startPos = some s) (he : m.endPos = some e)
    (hi : initialFrontier alg = .ok fr0) :
    Maze.solve m alg ≠ .error .unknownAlgorithm := by
  intro h
  rw [solve_eq_core alg hs he] at h
  cases hsc : solveCore m s e alg with
  | error er =>
    rw [hsc] at h
    simp only [exmap_error, Except.error.injEq] at h
    rcases solveCore_error_of_ok hi hsc with h1 | h1 <;> rw [h] at h1 <;>
      exact Err.noConfusion h1
  | ok r =>
    rw [hsc] at h
    exact absurd h (by simp)

/-- C3 counterexample: when a marker is missing, `solve` crashes by
unpacking `None` in `heuristic` (a `TypeError`) before reaching the
algorithm-name check, so an unsupported name does not fail with
`UnknownAlgorithmError` on such a maze. -/
theorem claim_c3_counterexample :
    mkMaze ["..."] = .ok ⟨[['.', '.', '.']], none, none, 3, 1⟩ ∧
    Maze.solve ⟨[['.', '.', '.']], none, none, 3, 1⟩ "quux" = .error .typeError ∧
    Err.typeError ≠ Err.unknownAlgorithm :=
  ⟨rfl, rfl, by decide⟩

/-- C3 (amended): for every maze in which both markers are present, `solve`
with a name outside `{bfs, dfs, greedy, astar}` fails with
`UnknownAlgorithmError` (raised by the dispatch, before any frontier is
created), each supported name selects the corresponding frontier variant
(queue, stack, priority, priority), and no supported name ever produces
that error. -/
theorem claim_c3 (m : Maze) (s e : Pos) (alg : String)
    (hs : m.startPos = some s) (he : m.endPos = some e) :
    (alg ∉ (["bfs", "dfs", "greedy", "astar"] : List String) →
      Maze.solve m alg = .error .unknownAlgorithm) ∧
    (initialFrontier "bfs" = .ok (.queue []) ∧
     initialFrontier "dfs" = .ok (.stack []) ∧
     initialFrontier "greedy" = .ok (.prio [] 0) ∧
     initialFrontier "astar" = .ok (.prio [] 0)) ∧
    (alg ∈ (["bfs", "dfs", "greedy", "astar"] : List String) →
      Maze.solve m alg ≠ .error .unknownAlgorithm) := by
  refine ⟨?_, ⟨rfl, rfl, rfl, rfl⟩, ?_⟩
  · intro hout
    simp only [List.mem_cons, List.mem_singleton, not_or] at hout
    obtain ⟨h1, h2, h3, h4, -⟩ := hout
    have hif : initialFrontier alg = .error .unknownAlgorithm := by
      unfold initialFrontier
      rw [if_neg h1, if_neg h2, if_neg (by
        intro hor
        rcases hor with h | h
        · exact h3 h
        · exact h4 h)]
    rw [solve_eq_core alg hs he]
    unfold solveCore
    rw [hif]
    rfl
  · intro hmem
    simp only [List.mem_cons, List.mem_singleton] at hmem
    rcases hmem with h | h | h | h | h
    rotate_right
    · exact absurd h (by simp)
    all_goals subst h
    · exact solve_ne_unknown hs he
        (show initialFrontier "bfs" = .ok (.queue []) from rfl)
    · exact solve_ne_unknown hs he
        (show initialFrontier "dfs" = .ok (.stack []) from rfl)
    · exact solve_ne_unknown hs he
        (show initialFrontier "greedy" = .ok (.prio [] 0) from rfl)
    · exact solve_ne_unknown hs he
        (show initialFrontier "astar" = .ok (.prio [] 0) from rfl)

/-- Witness for C3 on a concrete valid maze, with the unsupported name
`"quux"` and the supported name `"dfs"`. -/
theorem claim_c3_witness :
    Maze.solve ⟨[['A', '.', 'B']], some (0, 0), some (2, 0), 3, 1⟩ "quux" =
      .error .unknownAlgorithm ∧
    Maze.solve ⟨[['A', '.', 'B']], some (0, 0), some (2, 0), 3, 1⟩ "dfs" ≠
      .error .unknownAlgorithm :=
  ⟨(claim_c3 ⟨[['A', '.', 'B']], some (0, 0), some (2, 0), 3, 1⟩ (0, 0) (2, 0)
      "quux" rfl rfl).1 (by decide),
   (claim_c3 ⟨[['A', '.', 'B']], some (0, 0), some (2, 0), 3, 1⟩ (0, 0) (2, 0)
      "dfs" rfl rfl).2.2 (by decide)⟩

/-! ### C4: the three removal disciplines -/

/-- Insert a list of nodes one by one. -/
def foldAdd (f0 : Frontier) (ns : List Node) : Frontier :=
  ns.foldl Frontier.add f0

/-- The heap entries produced by inserting `ns` when the counter is `c`. -/
def entriesFrom (c : Nat) (ns : List Node) : List Entry :=
  (ns.enumFrom c).map (fun p => (p.2.f, p.1, p.2))

/-- The heap entries after inserting `ns` into a fresh priority frontier. -/
def entriesOf (ns : List Node) : List Entry :=
  entriesFrom 0 ns

lemma foldAdd_stack (ns : List Node) : ∀ l, foldAdd (.stack l) ns = .stack (l ++ ns) := by
  induction ns with
  | nil => intro l; simp [foldAdd]
  | cons n rest ih =>
    intro l
    show foldAdd (.stack (l ++ [n])) rest = _
    rw [ih]
    simp

lemma foldAdd_queue (ns : List Node) : ∀ l, foldAdd (.queue l) ns = .queue (l ++ ns) := by
  induction ns with
  | nil => intro l; simp [foldAdd]
  | cons n rest ih =>
    intro l
    show foldAdd (.queue (l ++ [n])) rest = _
    rw [ih]
    simp

lemma entriesFrom_cons (c : Nat) (n : Node) (ns : List Node) :
    entriesFrom c (n :: ns) = (n.f, c, n) :: entriesFrom (c + 1) ns := rfl

lemma foldAdd_prio (ns : List Node) :
    ∀ es c, foldAdd (.prio es c) ns = .prio (es ++ entriesFrom c ns) (c + ns.length) := by
  induction ns with
  | nil => intro es c; simp [foldAdd, entriesFrom]
  | cons n rest ih =>
    intro es c
    show foldAdd (.prio (es ++ [(n.f, c, n)]) (c + 1)) rest = _
    rw [ih]
    rw [entriesFrom_cons]
    simp only [List.append_assoc, List.singleton_append, List.length_cons]
    congr 1
    omega

lemma mem_entriesFrom_ctr {c : Nat} {ns : List Node} {e : Entry}
    (h : e ∈ entriesFrom c ns) : c ≤ e.2.1 := by
  induction ns generalizing c with
  | nil => simp [entriesFrom] at h
  | cons n rest ih =>
    rw [entriesFrom_cons] at h
    rcases List.mem_cons.1 h with h | h
    · subst h; exact le_refl _
    · exact Nat.le_of_succ_le (ih h)

lemma entriesFrom_ctr_pairwise (ns : List Node) :
    ∀ c, (entriesFrom c ns).Pairwise (fun a b => a.2.1 < b.2.1) := by
  induction ns with
  | nil => intro c; simp [entriesFrom]
  | cons n rest ih =>
    intro c
    rw [entriesFrom_cons]
    exact List.Pairwise.cons
      (fun b hb => Nat.lt_of_lt_of_le (Nat.lt_succ_self c) (mem_entriesFrom_ctr hb))
      (ih (c + 1))

lemma entryLe_true_iff (e1 e2 : Entry) :
    entryLe e1 e2 = true ↔ e1.1 < e2.1 ∨ (e1.1 = e2.1 ∧ e1.2.1 ≤ e2.2.1) := by
  simp [entryLe]

/-- `popMin` on a list with strictly increasing counters returns the entry
at the first index whose priority is minimal, and removes exactly it. -/
lemma popMin_first_min {es : List Entry}
    (hp : es.Pairwise (fun a b => a.2.1 < b.2.1)) (hne : es ≠ []) :
    ∃ i, ∃ hi : i < es.length,
      popMin es = some (es.get ⟨i, hi⟩, es.eraseIdx i) ∧
      (∀ j, ∀ hj : j < es.length, (es.get ⟨i, hi⟩).1 ≤ (es.get ⟨j, hj⟩).1) ∧
      (∀ j, ∀ hj : j < es.length, j < i → (es.get ⟨i, hi⟩).1 < (es.get ⟨j, hj⟩).1) := by
  induction es with
  | nil => exact absurd rfl hne
  | cons e rest ih =>
    rcases List.pairwise_cons.1 hp with ⟨hhead, htail⟩
    by_cases hrne : rest = []
    · subst hrne
      refine ⟨0, Nat.succ_pos 0, rfl, ?_, ?_⟩
      · intro j hj
        cases j with
        | zero => exact le_refl _
        | succ j' => exact absurd hj (by simp)
      · intro j hj hji
        exact absurd hji (Nat.not_lt_zero j)
    · obtain ⟨i', hi', hpop', hmin', hfirst'⟩ := ih htail hrne
      have hmem : rest.get ⟨i', hi'⟩ ∈ rest := List.get_mem rest i' hi'
      by_cases hle : entryLe e (rest.get ⟨i', hi'⟩)
      · refine ⟨0, Nat.succ_pos _, ?_, ?_, ?_⟩
        · simp only [popMin, hpop']
          rw [if_pos hle]
          rfl
        · intro j hj
          cases j with
          | zero => exact le_refl _
          | succ j' =>
            have hj' : j' < rest.length := Nat.lt_of_succ_lt_succ hj
            have he_mn : e.1 ≤ (rest.get ⟨i', hi'⟩).1 := by
              rcases (entryLe_true_iff e (rest.get ⟨i', hi'⟩)).1 hle with h | h
              · exact Nat.le_of_lt h
              · exact Nat.le_of_eq h.1
            exact Nat.le_trans he_mn (hmin' j' hj')
        · intro j hj hji
          exact absurd hji (Nat.not_lt_zero j)
      · have hmn_lt : (rest.get ⟨i', hi'⟩).1 < e.1 := by
          rcases Nat.lt_trichotomy e.1 (rest.get ⟨i', hi'⟩).1 with h | h | h
          · exact absurd ((entryLe_true_iff e _).2 (Or.inl h)) hle
          · have hctr : e.2.1 ≤ (rest.get ⟨i', hi'⟩).2.1 :=
              Nat.le_of_lt (hhead _ hmem)
            exact absurd ((entryLe_true_iff e _).2 (Or.inr ⟨h, hctr⟩)) hle
          · exact h
        refine ⟨i' + 1, Nat.succ_lt_succ hi', ?_, ?_, ?_⟩
        · simp only [popMin, hpop']
          rw [if_neg hle]
          rfl
        · intro j hj
          cases j with
          | zero => exact Nat.le_of_lt hmn_lt
          | succ j' => exact hmin' j' (Nat.lt_of_succ_lt_succ hj)
        · intro j hj hji
          cases j with
          | zero => exact hmn_lt
          | succ j' =>
            exact hfirst' j' (Nat.lt_of_succ_lt_succ hj) (Nat.lt_of_succ_lt_succ hji)

lemma entriesFrom_length (c : Nat) (ns : List Node) :
    (entriesFrom c ns).length = ns.length := by
  simp [entriesFrom]

lemma entriesFrom_get (c : Nat) (ns : List Node) (i : Nat) (hi : i < ns.length) :
    (entriesFrom c ns).get ⟨i, by rw [entriesFrom_length]; exact hi⟩ =
      ((ns.get ⟨i, hi⟩).f, c + i, ns.get ⟨i, hi⟩) := by
  simp [entriesFrom]

/-- C4: the stack-ordered frontier removes the most recently inserted node,
the queue-ordered frontier removes the earliest inserted node, the
priority-ordered frontier removes the first-inserted node of minimum
`cost + heuristic` (counters break ties by insertion order), and all three
raise `EmptyFrontierError` on an empty frontier. -/
theorem claim_c4 :
    (∀ ns n, (foldAdd (.stack []) (ns ++ [n])).remove =
      .ok (n, foldAdd (.stack []) ns)) ∧
    (∀ n ns, (foldAdd (.queue []) (n :: ns)).remove =
      .ok (n, foldAdd (.queue []) ns)) ∧
    (∀ ns : List Node, ns ≠ [] → ∃ i, ∃ hi : i < ns.length,
      (foldAdd (.prio [] 0) ns).remove =
        .ok (ns.get ⟨i, hi⟩, .prio ((entriesOf ns).eraseIdx i) ns.length) ∧
      (∀ j, ∀ hj : j < ns.length, (ns.get ⟨i, hi⟩).f ≤ (ns.get ⟨j, hj⟩).f) ∧
      (∀ j, ∀ hj : j < ns.length, j < i → (ns.get ⟨i, hi⟩).f < (ns.get ⟨j, hj⟩).f)) ∧
    ((Frontier.stack []).remove = .error .emptyFrontier ∧
     (Frontier.queue []).remove = .error .emptyFrontier ∧
     ∀ c, (Frontier.prio [] c).remove = .error .emptyFrontier) := by
  refine ⟨?_, ?_, ?_, rfl, rfl, fun c => rfl⟩
  · intro ns n
    rw [foldAdd_stack (ns ++ [n]) [], foldAdd_stack ns []]
    show Frontier.remove (.stack (ns ++ [n])) = _
    simp only [Frontier.remove, List.getLast?_concat, List.dropLast_concat,
      List.nil_append]
  · intro n ns
    rw [foldAdd_queue (n :: ns) [], foldAdd_queue ns []]
    rfl
  · intro ns hne
    rw [foldAdd_prio ns [] 0]
    simp only [List.nil_append, Nat.zero_add]
    have hlen := entriesFrom_length 0 ns
    have hesne : entriesFrom 0 ns ≠ [] := by
      intro h
      exact hne (List.length_eq_zero.1 (by rw [← hlen, h]; rfl))
    obtain ⟨i, hi, hpop, hmin, hfirst⟩ :=
      popMin_first_min (entriesFrom_ctr_pairwise ns 0) hesne
    have hi' : i < ns.length := by rwa [hlen] at hi
    refine ⟨i, hi', ?_, ?_, ?_⟩
    · have hg : (entriesFrom 0 ns).get ⟨i, hi⟩ =
          ((ns.get ⟨i, hi'⟩).f, 0 + i, ns.get ⟨i, hi'⟩) :=
        entriesFrom_get 0 ns i hi'
      simp only [Frontier.remove, hpop, hg]
      rfl
    · intro j hj
      have := hmin j (by rwa [hlen])
      rwa [show (⟨i, hi⟩ : Fin (entriesFrom 0 ns).length) =
        ⟨i, by rw [entriesFrom_length]; exact hi'⟩ from rfl,
        entriesFrom_get 0 ns i hi',
        show (⟨j, by rwa [hlen]⟩ : Fin (entriesFrom 0 ns).length) =
        ⟨j, by rw [entriesFrom_length]; exact hj⟩ from rfl,
        entriesFrom_get 0 ns j hj] at this
    · intro j hj hji
      have := hfirst j (by rwa [hlen]) hji
      rwa [show (⟨i, hi⟩ : Fin (entriesFrom 0 ns).length) =
        ⟨i, by rw [entriesFrom_length]; exact hi'⟩ from rfl,
        entriesFrom_get 0 ns i hi',
        show (⟨j, by rwa [hlen]⟩ : Fin (entriesFrom 0 ns).length) =
        ⟨j, by rw [entriesFrom_length]; exact hj⟩ from rfl,
        entriesFrom_get 0 ns j hj] at this

/-- Sample node for the C4 witness. -/
def wNode1 : Node := .root (0, 0) 5 0

/-- Second sample node for the C4 witness. -/
def wNode2 : Node := .root (1, 0) 2 0

/-- Witness for C4 on the two-node insertion sequence `[wNode1, wNode2]`. -/
theorem claim_c4_witness :
    (foldAdd (.stack []) ([wNode1] ++ [wNode2])).remove =
      .ok (wNode2, foldAdd (.stack []) [wNode1]) ∧
    (foldAdd (.queue []) (wNode1 :: [wNode2])).remove =
      .ok (wNode1, foldAdd (.queue []) [wNode2]) ∧
    (∃ i, ∃ hi : i < ([wNode1, wNode2] : List Node).length,
      (foldAdd (.prio [] 0) [wNode1, wNode2]).remove =
        .ok (([wNode1, wNode2] : List Node).get ⟨i, hi⟩,
          .prio ((entriesOf [wNode1, wNode2]).eraseIdx i)
            ([wNode1, wNode2] : List Node).length) ∧
      (∀ j, ∀ hj : j < ([wNode1, wNode2] : List Node).length,
        (([wNode1, wNode2] : List Node).get ⟨i, hi⟩).f ≤
          (([wNode1, wNode2] : List Node).get ⟨j, hj⟩).f) ∧
      (∀ j, ∀ hj : j < ([wNode1, wNode2] : List Node).length, j < i →
        (([wNode1, wNode2] : List Node).get ⟨i, hi⟩).f <
          (([wNode1, wNode2] : List Node).get ⟨j, hj⟩).f)) :=
  ⟨claim_c4.1 [wNode1] wNode2, claim_c4.2.1 wNode1 [wNode2],
   claim_c4.2.2.1 [wNode1, wNode2] (by decide)⟩

/-! ### C8: determinism -/

/-- A heap entry that is least (lexicographically by priority then counter)
among all resident entries. -/
def IsMinEntry (es : List Entry) (e : Entry) : Prop :=
  e ∈ es ∧ ∀ e2 ∈ es, entryLe e e2 = true

instance (es : List Entry) (e : Entry) : Decidable (IsMinEntry es e) := by
  unfold IsMinEntry
  infer_instance

/-- C8: `solve` is a pure function of the maze and the algorithm name
(repeated invocations are literally equal in the embedding), and the only
potential source of nondeterminism in the source — which heap entry
`heapq.heappop` hands back among equal priorities — is resolved by the
per-insert counter: among entries with pairwise distinct counters the
least entry is unique. -/
theorem claim_c8 :
    (∀ (m : Maze) (alg : String), Maze.solve m alg = Maze.solve m alg) ∧
    (∀ es : List Entry, (es.map (fun e => e.2.1)).Nodup →
      ∀ e1 e2, IsMinEntry es e1 → IsMinEntry es e2 → e1 = e2) := by
  refine ⟨fun m alg => rfl, ?_⟩
  rintro es hnd e1 e2 ⟨hm1, hle1⟩ ⟨hm2, hle2⟩
  have h12 := (entryLe_true_iff e1 e2).1 (hle1 e2 hm2)
  have h21 := (entryLe_true_iff e2 e1).1 (hle2 e1 hm1)
  have hctr : e1.2.1 = e2.2.1 := by
    rcases h12 with h | ⟨hp, hc⟩
    · rcases h21 with h' | ⟨hp', _⟩
      · omega
      · omega
    · rcases h21 with h' | ⟨_, hc'⟩
      · omega
      · omega
  exact List.inj_on_of_nodup_map hnd hm1 hm2 hctr

/-- Witness for C8: the unique minimal entry of a concrete two-entry heap. -/
theorem claim_c8_witness :
    Maze.solve ⟨[['A', '.', 'B']], some (0, 0), some (2, 0), 3, 1⟩ "astar" =
      Maze.solve ⟨[['A', '.', 'B']], some (0, 0), some (2, 0), 3, 1⟩ "astar" ∧
    ((3, 0, wNode1) : Entry) = ((3, 0, wNode1) : Entry) :=
  ⟨claim_c8.1 ⟨[['A', '.', 'B']], some (0, 0), some (2, 0), 3, 1⟩ "astar",
   claim_c8.2 [(3, 0, wNode1), (4, 1, wNode2)] (by decide)
     (3, 0, wNode1) (3, 0, wNode1) (by decide) (by decide)⟩

/-! ### Total reformulation of the grid functions on rectangular grids -/

/-- The character at a position, `'#'` when out of range. -/
def cellAt (m : Maze) (p : Pos) : Char :=
  match m.grid.get? p.2.toNat with
  | none => '#'
  | some row =>
    match row.get? p.1.toNat with
    | none => '#'
    | some c => c

/-- Total version of `is_valid` (they agree on rectangular grids). -/
def isOpen (m : Maze) (p : Pos) : Bool :=
  0 ≤ p.1 ∧ p.1 < (m.width : Int) ∧ 0 ≤ p.2 ∧ p.2 < (m.height : Int) ∧
    cellAt m p ≠ '#'

/-- Total version of `neighbors`. -/
def nbrList (m : Maze) (s : Pos) : List (String × Pos) :=
  (candidates s).filter (fun c => isOpen m c.2)

/-- The open neighbor positions, in the fixed up/down/left/right order. -/
def nbrStates (m : Maze) (s : Pos) : List Pos :=
  (nbrList m s).map Prod.snd

/-- A well-formed maze record: nonempty rectangular grid, consistent
`width`/`height`, markers located by `find_position`, and exactly one
start and one goal cell. -/
def ValidMaze (m : Maze) : Prop :=
  m.grid ≠ [] ∧
  m.height = m.grid.length ∧
  (∀ row ∈ m.grid, row.length = m.width) ∧
  m.startPos = find_position m.grid 'A' ∧
  m.endPos = find_position m.grid 'B' ∧
  (m.grid.map (fun row => row.countP (fun c => c = 'A'))).sum = 1 ∧
  (m.grid.map (fun row => row.countP (fun c => c = 'B'))).sum = 1

instance (m : Maze) : Decidable (ValidMaze m) := by
  unfold ValidMaze
  infer_instance

lemma is_valid_eq_isOpen {m : Maze} (hv : ValidMaze m) (p : Pos) :
    is_valid m p.1 p.2 = .ok (isOpen m p) := by
  obtain ⟨-, hh, hw, -⟩ := hv
  by_cases hb : 0 ≤ p.1 ∧ p.1 < (m.width : Int) ∧ 0 ≤ p.2 ∧ p.2 < (m.height : Int)
  · obtain ⟨hx0, hxw, hy0, hyh⟩ := hb
    have hyl : p.2.toNat < m.grid.length := by
      rw [← hh]
      exact (Int.toNat_lt hy0).2 hyh
    have hrow : m.grid.get? p.2.toNat = some (m.grid.get ⟨p.2.toNat, hyl⟩) :=
      List.get?_eq_get hyl
    have hrmem : m.grid.get ⟨p.2.toNat, hyl⟩ ∈ m.grid := List.get_mem _ _ _
    have hxl : p.1.toNat < (m.grid.get ⟨p.2.toNat, hyl⟩).length := by
      rw [hw _ hrmem]
      exact (Int.toNat_lt hx0).2 hxw
    have hc : (m.grid.get ⟨p.2.toNat, hyl⟩).get? p.1.toNat =
        some ((m.grid.get ⟨p.2.toNat, hyl⟩).get ⟨p.1.toNat, hxl⟩) :=
      List.get?_eq_get hxl
    unfold is_valid isOpen cellAt
    rw [if_pos ⟨hx0, hxw, hy0, hyh⟩]
    simp only [hrow, hc]
    simp only [Except.ok.injEq]
    rw [Bool.eq_iff_iff]
    simp only [decide_eq_true_eq]
    constructor
    · intro hne
      exact ⟨hx0, hxw, hy0, hyh, hne⟩
    · rintro ⟨-, -, -, -, hne⟩
      exact hne
  · unfold is_valid isOpen
    rw [if_neg hb]
    simp only [Except.ok.injEq]
    symm
    rw [decide_eq_false_iff_not]
    rintro ⟨h1, h2, h3, h4, -⟩
    exact hb ⟨h1, h2, h3, h4⟩

lemma filterValid_eq {m : Maze} (hv : ValidMaze m) (l : List (String × Pos)) :
    filterValid m l = .ok (l.filter (fun c => isOpen m c.2)) := by
  induction l with
  | nil => rfl
  | cons c rest ih =>
    obtain ⟨a, p⟩ := c
    rw [filterValid, is_valid_eq_isOpen hv p, ih]
    simp only [exbind_ok]
    rw [List.filter_cons]

lemma neighbors_eq {m : Maze} (hv : ValidMaze m) (s : Pos) :
    neighbors m s = .ok (nbrList m s) :=
  filterValid_eq hv (candidates s)

lemma mem_nbrStates_isOpen {m : Maze} {p t : Pos}
    (h : t ∈ nbrStates m p) : isOpen m t = true := by
  obtain ⟨c, hc, rfl⟩ := List.mem_map.1 h
  exact (List.mem_filter.1 hc).2

lemma mem_nbrStates_adj {m : Maze} {p t : Pos}
    (h : t ∈ nbrStates m p) : manhattan p t = 1 := by
  obtain ⟨c, hc, rfl⟩ := List.mem_map.1 h
  have hmem := (List.mem_filter.1 hc).1
  simp only [candidates, List.mem_cons, List.mem_singleton,
    List.not_mem_nil, or_false] at hmem
  rcases hmem with rfl | rfl | rfl | rfl
  · simp only [manhattan]
    rw [show p.1 - p.1 = 0 from by ring, show p.2 - (p.2 - 1) = 1 from by ring]
    decide
  · simp only [manhattan]
    rw [show p.1 - p.1 = 0 from by ring, show p.2 - (p.2 + 1) = -1 from by ring]
    decide
  · simp only [manhattan]
    rw [show p.1 - (p.1 - 1) = 1 from by ring, show p.2 - p.2 = 0 from by ring]
    decide
  · simp only [manhattan]
    rw [show p.1 - (p.1 + 1) = -1 from by ring, show p.2 - p.2 = 0 from by ring]
    decide

/-! ### Reachability and distance -/

/-- Positions reachable in at most `k` steps from `s0`. -/
def reachSet (m : Maze) (s0 : Pos) : Nat → List Pos
  | 0 => [s0]
  | k + 1 =>
    (reachSet m s0 k ++ (reachSet m s0 k).flatMap (fun p => nbrStates m p)).dedup

/-- Reachability through open cells. -/
def Reach (m : Maze) (s0 t : Pos) : Prop :=
  ∃ k, t ∈ reachSet m s0 k

/-- `k` is the exact shortest number of steps from `s0` to `t`. -/
def IsDistN (m : Maze) (s0 t : Pos) (k : Nat) : Prop :=
  t ∈ reachSet m s0 k ∧ ∀ j, t ∈ reachSet m s0 j → k ≤ j

lemma mem_reachSet_succ {m : Maze} {s0 t : Pos} {k : Nat} :
    t ∈ reachSet m s0 (k + 1) ↔
      t ∈ reachSet m s0 k ∨ ∃ p ∈ reachSet m s0 k, t ∈ nbrStates m p := by
  rw [reachSet, List.mem_dedup, List.mem_append, List.mem_flatMap]

lemma reachSet_mono {m : Maze} {s0 t : Pos} {k j : Nat} (hkj : k ≤ j)
    (h : t ∈ reachSet m s0 k) : t ∈ reachSet m s0 j := by
  induction j with
  | zero => rwa [Nat.le_zero.1 hkj] at h
  | succ j' ih =>
    rcases Nat.lt_or_ge k (j' + 1) with hlt | hge
    · exact mem_reachSet_succ.2 (Or.inl (ih (Nat.lt_succ_iff.1 hlt)))
    · rwa [Nat.le_antisymm hkj hge] at h

lemma reach_self (m : Maze) (s0 : Pos) : Reach m s0 s0 :=
  ⟨0, List.mem_singleton.2 rfl⟩

lemma reach_step {m : Maze} {s0 p t : Pos} (hp : Reach m s0 p)
    (ht : t ∈ nbrStates m p) : Reach m s0 t := by
  obtain ⟨k, hk⟩ := hp
  exact ⟨k + 1, mem_reachSet_succ.2 (Or.inr ⟨p, hk, ht⟩)⟩

lemma reach_isOpen {m : Maze} {s0 t : Pos} (h : Reach m s0 t) :
    t = s0 ∨ isOpen m t = true := by
  obtain ⟨k, hk⟩ := h
  induction k with
  | zero => exact Or.inl (List.mem_singleton.1 hk)
  | succ k' ih =>
    rcases mem_reachSet_succ.1 hk with h | ⟨p, -, ht⟩
    · exact ih h
    · exact Or.inr (mem_nbrStates_isOpen ht)

lemma reach_dist {m : Maze} {s0 t : Pos} (h : Reach m s0 t) :
    ∃ k, IsDistN m s0 t k := by
  classical
  exact ⟨Nat.find h, Nat.find_spec h, fun j hj => Nat.find_min' h hj⟩

lemma isDistN_unique {m : Maze} {s0 t : Pos} {k k' : Nat}
    (h : IsDistN m s0 t k) (h' : IsDistN m s0 t k') : k = k' :=
  Nat.le_antisymm (h.2 k' h'.1) (h'.2 k h.1)

lemma isDistN_zero {m : Maze} {s0 t : Pos} (h : IsDistN m s0 t 0) : t = s0 :=
  List.mem_singleton.1 h.1

lemma isDistN_self (m : Maze) (s0 : Pos) : IsDistN m s0 s0 0 :=
  ⟨List.mem_singleton.2 rfl, fun j _ => Nat.zero_le j⟩

lemma isDistN_pred {m : Maze} {s0 t : Pos} {k : Nat}
    (h : IsDistN m s0 t (k + 1)) :
    ∃ p, IsDistN m s0 p k ∧ t ∈ nbrStates m p := by
  have hnot : t ∉ reachSet m s0 k := fun hmem =>
    absurd (h.2 k hmem) (by omega)
  rcases mem_reachSet_succ.1 h.1 with hmem | ⟨p, hp, ht⟩
  · exact absurd hmem hnot
  · obtain ⟨j, hj⟩ := reach_dist ⟨k, hp⟩
    have hjk : j ≤ k := hj.2 k hp
    rcases Nat.lt_or_ge j k with hlt | hge
    · have : t ∈ reachSet m s0 (j + 1) :=
        mem_reachSet_succ.2 (Or.inr ⟨p, hj.1, ht⟩)
      exact absurd (h.2 (j + 1) this) (by omega)
    · rw [Nat.le_antisymm hjk hge] at hj
      exact ⟨p, hj, ht⟩

lemma dist_le_succ {m : Maze} {s0 t p : Pos} {k j : Nat}
    (hp : IsDistN m s0 p k) (ht : t ∈ nbrStates m p)
    (hd : IsDistN m s0 t j) : j ≤ k + 1 :=
  hd.2 (k + 1) (mem_reachSet_succ.2 (Or.inr ⟨p, hp.1, ht⟩))

/-! ### Frontier bookkeeping -/

lemma nodes_add (fr : Frontier) (n : Node) : (fr.add n).nodes = fr.nodes ++ [n] := by
  cases fr <;> simp [Frontier.add, Frontier.nodes]

lemma containsState_eq (fr : Frontier) (t : Pos) :
    fr.containsState t = (fr.nodes.map Node.state).contains t := by
  rw [Bool.eq_iff_iff]
  cases fr <;>
    simp [Frontier.containsState, Frontier.nodes, List.any_eq_true, List.mem_map,
      decide_eq_true_eq]

lemma isEmpty_iff (fr : Frontier) : fr.isEmpty = true ↔ fr.nodes = [] := by
  cases fr <;> simp [Frontier.isEmpty, Frontier.nodes]

lemma contains_false_iff {l : List Pos} {a : Pos} : l.contains a = false ↔ a ∉ l := by
  rw [← Bool.not_eq_true]
  simp

lemma popMin_none {es : List Entry} (h : popMin es = none) : es = [] := by
  cases es with
  | nil => rfl
  | cons e rest =>
    obtain ⟨pr, hp⟩ := popMin_of_ne_nil (List.cons_ne_nil e rest)
    rw [hp] at h
    exact Option.noConfusion h

lemma popMin_perm : ∀ {es : List Entry} {e : Entry} {rest : List Entry},
    popMin es = some (e, rest) → es.Perm (e :: rest) := by
  intro es
  induction es with
  | nil =>
    intro e rest h
    exact absurd h (by simp [popMin])
  | cons x r ih =>
    intro e rest h
    rw [popMin] at h
    cases hr : popMin r with
    | none =>
      simp only [hr, Option.some.injEq, Prod.mk.injEq] at h
      obtain ⟨rfl, rfl⟩ := h
      rw [popMin_none hr]
    | some pr =>
      obtain ⟨mn, rest'⟩ := pr
      simp only [hr] at h
      by_cases hle : entryLe x mn
      · rw [if_pos hle] at h
        simp only [Option.some.injEq, Prod.mk.injEq] at h
        obtain ⟨rfl, rfl⟩ := h
        exact List.Perm.refl _
      · rw [if_neg hle] at h
        simp only [Option.some.injEq, Prod.mk.injEq] at h
        obtain ⟨rfl, rfl⟩ := h
        exact ((ih hr).cons x).trans (List.Perm.swap mn x rest')

lemma remove_perm {fr : Frontier} {n : Node} {fr' : Frontier}
    (h : fr.remove = .ok (n, fr')) : fr.nodes.Perm (n :: fr'.nodes) := by
  cases fr with
  | stack l =>
    cases hl : l.getLast? with
    | none =>
      rw [Frontier.remove] at h
      simp only [hl] at h
      exact absurd h (by simp)
    | some last =>
      rw [Frontier.remove] at h
      simp only [hl, Except.ok.injEq, Prod.mk.injEq] at h
      obtain ⟨rfl, rfl⟩ := h
      have hne : l ≠ [] := by
        intro he
        subst he
        simp at hl
      have hgl : l.getLast hne = last := by
        rw [List.getLast?_eq_getLast l hne, Option.some.injEq] at hl
        exact hl
      have h1 : l = l.dropLast ++ [last] := by
        rw [← hgl]
        exact (List.dropLast_append_getLast hne).symm
      have h2 := List.perm_append_singleton last l.dropLast
      rw [← h1] at h2
      exact h2
  | queue l =>
    cases l with
    | nil => exact absurd h (by simp [Frontier.remove])
    | cons x rest =>
      rw [Frontier.remove] at h
      simp only [Except.ok.injEq, Prod.mk.injEq] at h
      obtain ⟨rfl, rfl⟩ := h
      exact List.Perm.refl _
  | prio es c =>
    cases hp : popMin es with
    | none =>
      rw [Frontier.remove] at h
      simp only [hp] at h
      exact absurd h (by simp)
    | some pr =>
      obtain ⟨e, rest⟩ := pr
      rw [Frontier.remove] at h
      simp only [hp, Except.ok.injEq, Prod.mk.injEq] at h
      obtain ⟨rfl, rfl⟩ := h
      have := (popMin_perm hp).map (fun x => x.2.2)
      simpa using this

/-! ### What the expansion loop inserts -/

lemma mkChild_state (e : Pos) (alg : String) (node : Node) (a : String) (s : Pos) :
    (mkChild e alg node a s).state = s := by
  unfold mkChild
  split
  · rfl
  · split <;> rfl

lemma mkChild_eq (e : Pos) (alg : String) (node : Node) (a : String) (s : Pos) :
    ∃ c h, mkChild e alg node a s = .child s node a c h := by
  unfold mkChild
  split
  · exact ⟨_, _, rfl⟩
  · split <;> exact ⟨_, _, rfl⟩

/-- The neighbors the inner loop actually inserts, tracking the evolving
frontier state set exactly as the loop does. -/
def selectNew (ex fs : List Pos) : List (String × Pos) → List (String × Pos)
  | [] => []
  | c :: rest =>
    if !(ex.contains c.2) && !(fs.contains c.2) then
      c :: selectNew ex (fs ++ [c.2]) rest
    else
      selectNew ex fs rest

lemma expand_nodes (e2 : Pos) (alg : String) (node : Node) (ex : List Pos) :
    ∀ (nbrs : List (String × Pos)) (fr : Frontier),
    (expand e2 alg node ex nbrs fr).nodes =
      fr.nodes ++ (selectNew ex (fr.nodes.map Node.state) nbrs).map
        (fun c => mkChild e2 alg node c.1 c.2) := by
  intro nbrs
  induction nbrs with
  | nil =>
    intro fr
    simp [expand, selectNew]
  | cons c rest ih =>
    intro fr
    obtain ⟨a, s⟩ := c
    rw [expand, selectNew, containsState_eq]
    by_cases hcond : (!(ex.contains s) && !((fr.nodes.map Node.state).contains s)) = true
    · rw [if_pos hcond, if_pos hcond, ih]
      rw [nodes_add, List.map_append]
      simp only [List.map_cons, List.map_nil, mkChild_state]
      rw [List.append_assoc]
      rfl
    · rw [if_neg hcond, if_neg hcond, ih]

lemma selectNew_sub : ∀ {nbrs : List (String × Pos)} {ex fs : List Pos} {c},
    c ∈ selectNew ex fs nbrs → c ∈ nbrs ∧ c.2 ∉ ex ∧ c.2 ∉ fs := by
  intro nbrs
  induction nbrs with
  | nil =>
    intro ex fs c h
    exact absurd h (List.not_mem_nil c)
  | cons d rest ih =>
    intro ex fs c h
    rw [selectNew] at h
    by_cases hcond : (!(ex.contains d.2) && !(fs.contains d.2)) = true
    · rw [if_pos hcond] at h
      simp only [Bool.and_eq_true, Bool.not_eq_true'] at hcond
      rcases List.mem_cons.1 h with rfl | h'
      · exact ⟨List.mem_cons_self _ _, contains_false_iff.1 hcond.1,
          contains_false_iff.1 hcond.2⟩
      · obtain ⟨hm, hex, hfs⟩ := ih h'
        exact ⟨List.mem_cons_of_mem _ hm, hex, fun hc =>
          hfs (List.mem_append_left _ hc)⟩
    · rw [if_neg hcond] at h
      obtain ⟨hm, hex, hfs⟩ := ih h
      exact ⟨List.mem_cons_of_mem _ hm, hex, hfs⟩

lemma selectNew_nodup : ∀ {nbrs : List (String × Pos)} {ex} {fs : List Pos},
    fs.Nodup → (fs ++ (selectNew ex fs nbrs).map Prod.snd).Nodup := by
  intro nbrs
  induction nbrs with
  | nil =>
    intro ex fs h
    simpa [selectNew]
  | cons d rest ih =>
    intro ex fs h
    rw [selectNew]
    by_cases hcond : (!(ex.contains d.2) && !(fs.contains d.2)) = true
    · rw [if_pos hcond]
      simp only [Bool.and_eq_true, Bool.not_eq_true'] at hcond
      have hd2 : d.2 ∉ fs := contains_false_iff.1 hcond.2
      have hfs' : (fs ++ [d.2]).Nodup := by
        rw [List.nodup_append]
        exact ⟨h, List.nodup_singleton _, by simpa using hd2⟩
      have := @ih ex (fs ++ [d.2]) hfs'
      rw [List.append_assoc, List.singleton_append] at this
      simpa using this
    · rw [if_neg hcond]
      exact ih h

lemma selectNew_complete : ∀ {nbrs : List (String × Pos)} {ex fs : List Pos} {t : Pos},
    t ∈ nbrs.map Prod.snd → t ∉ ex →
    t ∈ fs ∨ t ∈ (selectNew ex fs nbrs).map Prod.snd := by
  intro nbrs
  induction nbrs with
  | nil =>
    intro ex fs t h _
    exact absurd h (by simp)
  | cons d rest ih =>
    intro ex fs t h hex
    simp only [List.map_cons, List.mem_cons] at h
    rw [selectNew]
    by_cases hcond : (!(ex.contains d.2) && !(fs.contains d.2)) = true
    · rw [if_pos hcond]
      rcases h with rfl | h'
      · exact Or.inr (by simp)
      · rcases @ih ex (fs ++ [d.2]) t h' hex with hin | hin
        · rcases List.mem_append.1 hin with hin | hin
          · exact Or.inl hin
          · exact Or.inr (by simp [List.mem_singleton.1 hin])
        · exact Or.inr (by simp [hin])
    · rw [if_neg hcond]
      rcases h with rfl | h'
      · simp only [Bool.and_eq_true, Bool.not_eq_true', not_and_or] at hcond
        rcases hcond with hc | hc
        · rw [Bool.not_eq_false] at hc
          exact absurd (by simpa using hc) hex
        · rw [Bool.not_eq_false] at hc
          exact Or.inl (by simpa using hc)
      · exact ih h' hex

/-! ### Parent chains and valid paths -/

/-- The ancestor chain of a node is rooted at `s0` and each step is a real
open-cell move. -/
def ChainOk (m : Maze) (s0 : Pos) : Node → Prop
  | .root st _ _ => st = s0
  | .child st p _ _ _ => st ∈ nbrStates m p.state ∧ ChainOk m s0 p

/-- `PathFrom m a l b`: `l` lists the successive states of a walk from `a`
to `b` through open neighbor moves (excluding `a`, including `b`). -/
def PathFrom (m : Maze) : Pos → List Pos → Pos → Prop
  | a, [], b => a = b
  | a, x :: xs, b => x ∈ nbrStates m a ∧ PathFrom m x xs b

lemma pathFrom_append_one {m : Maze} : ∀ {l : List Pos} {a b c : Pos},
    PathFrom m a l b → c ∈ nbrStates m b → PathFrom m a (l ++ [c]) c := by
  intro l
  induction l with
  | nil =>
    intro a b c h hc
    have hab : a = b := h
    subst hab
    exact ⟨hc, rfl⟩
  | cons x xs ih =>
    intro a b c h hc
    obtain ⟨hx, hrest⟩ := h
    exact ⟨hx, ih hrest hc⟩

lemma chainOk_path {m : Maze} {s0 : Pos} : ∀ {n : Node}, ChainOk m s0 n →
    PathFrom m s0 (chainCells n) n.state := by
  intro n
  induction n with
  | root st c h =>
    intro hok
    exact (show st = s0 from hok).symm
  | child st p a c h ihp =>
    intro hok
    obtain ⟨hst, hokp⟩ := (show st ∈ nbrStates m p.state ∧ ChainOk m s0 p from hok)
    exact pathFrom_append_one (ihp hokp) hst

lemma pathFrom_last {m : Maze} : ∀ {l : List Pos} {a b : Pos},
    PathFrom m a l b → l ≠ [] → l.getLast? = some b := by
  intro l
  induction l with
  | nil =>
    intro a b _ hne
    exact absurd rfl hne
  | cons x xs ih =>
    intro a b h _
    obtain ⟨-, hrest⟩ := h
    cases xs with
    | nil =>
      have : x = b := hrest
      rw [this]
      rfl
    | cons y ys =>
      rw [List.getLast?_cons_cons]
      exact ih hrest (List.cons_ne_nil y ys)

lemma pathFrom_mem_open {m : Maze} : ∀ {l : List Pos} {a b : Pos},
    PathFrom m a l b → ∀ t ∈ l, isOpen m t = true := by
  intro l
  induction l with
  | nil =>
    intro a b _ t ht
    exact absurd ht (List.not_mem_nil t)
  | cons x xs ih =>
    intro a b h t ht
    obtain ⟨hx, hrest⟩ := h
    rcases List.mem_cons.1 ht with rfl | ht'
    · exact mem_nbrStates_isOpen hx
    · exact ih hrest t ht'

lemma pathFrom_chain {m : Maze} : ∀ {l : List Pos} {a b : Pos},
    PathFrom m a l b →
    List.Chain (fun u v => manhattan u v = 1 ∧ isOpen m v = true) a l := by
  intro l
  induction l with
  | nil =>
    intro a b _
    exact List.Chain.nil
  | cons x xs ih =>
    intro a b h
    obtain ⟨hx, hrest⟩ := h
    exact List.Chain.cons ⟨mem_nbrStates_adj hx, mem_nbrStates_isOpen hx⟩ (ih hrest)

lemma pathFrom_reach {m : Maze} {s0 : Pos} : ∀ {l : List Pos} {a b : Pos},
    Reach m s0 a → PathFrom m a l b → Reach m s0 b := by
  intro l
  induction l with
  | nil =>
    intro a b ha h
    exact (show a = b from h) ▸ ha
  | cons x xs ih =>
    intro a b ha h
    obtain ⟨hx, hrest⟩ := h
    exact ih (reach_step ha hx) hrest

/-! ### The loop invariant -/

/-- Invariant of `solveLoop`, common to all four algorithms. -/
structure GInv (m : Maze) (s0 e2 : Pos) (fr : Frontier) (ex : List Pos) : Prop where
  nodupStates : (fr.nodes.map Node.state).Nodup
  exNodup : ex.Nodup
  frNotEx : ∀ n ∈ fr.nodes, n.state ∉ ex
  exReach : ∀ t ∈ ex, Reach m s0 t
  frReach : ∀ n ∈ fr.nodes, Reach m s0 n.state
  closedNbrs : ∀ t ∈ ex, ∀ u ∈ nbrStates m t, u ∈ ex ∨ u ∈ fr.nodes.map Node.state
  startIn : s0 ∈ ex ∨ s0 ∈ fr.nodes.map Node.state
  goalNotEx : e2 ∉ ex
  chains : ∀ n ∈ fr.nodes, ChainOk m s0 n
  noStart : ∀ n ∈ fr.nodes, s0 ∉ chainCells n ∧ (n.state = s0 → chainCells n = [])

lemma ginv_init (m : Maze) (s0 e2 : Pos) (fr0 : Frontier) (c h : Nat)
    (hfr0 : fr0.nodes = []) :
    GInv m s0 e2 (fr0.add (.root s0 c h)) [] := by
  have hn : (fr0.add (.root s0 c h)).nodes = [.root s0 c h] := by
    rw [nodes_add, hfr0]
    rfl
  refine ⟨?_, List.nodup_nil, ?_, ?_, ?_, ?_, ?_, ?_, ?_, ?_⟩
  · rw [hn]
    exact List.nodup_singleton _
  · intro n _
    exact List.not_mem_nil _
  · intro t ht
    exact absurd ht (List.not_mem_nil t)
  · intro n hm
    rw [hn, List.mem_singleton] at hm
    subst hm
    exact reach_self m s0
  · intro t ht
    exact absurd ht (List.not_mem_nil t)
  · refine Or.inr ?_
    rw [hn]
    exact List.mem_singleton.2 rfl
  · exact List.not_mem_nil e2
  · intro n hm
    rw [hn, List.mem_singleton] at hm
    subst hm
    exact rfl
  · intro n hm
    rw [hn, List.mem_singleton] at hm
    subst hm
    exact ⟨List.not_mem_nil s0, fun _ => rfl⟩

/-- One non-goal iteration preserves the invariant and grows the explored
set by the freshly popped state. -/
lemma step_inv {m : Maze} {s0 e2 : Pos} {alg : String} {fr fr' : Frontier}
    {node : Node} {ex : List Pos}
    (inv : GInv m s0 e2 fr ex)
    (hrem : fr.remove = .ok (node, fr')) (hgoal : node.state ≠ e2) :
    GInv m s0 e2 (expand e2 alg node (ex.insert node.state)
      (nbrList m node.state) fr') (ex.insert node.state) ∧
    node.state ∉ ex := by
  have hperm := remove_perm hrem
  have hmem_node : node ∈ fr.nodes := hperm.mem_iff.2 (List.mem_cons_self _ _)
  have hsub : ∀ x ∈ fr'.nodes, x ∈ fr.nodes := fun x hx =>
    hperm.mem_iff.2 (List.mem_cons_of_mem _ hx)
  have hstates_perm :
      (fr.nodes.map Node.state).Perm (node.state :: fr'.nodes.map Node.state) := by
    have := hperm.map Node.state
    simpa using this
  have hnodup' : (node.state :: fr'.nodes.map Node.state).Nodup :=
    hstates_perm.nodup_iff.1 inv.nodupStates
  have hns_notin : node.state ∉ fr'.nodes.map Node.state :=
    (List.nodup_cons.1 hnodup').1
  have hfs'_nodup : (fr'.nodes.map Node.state).Nodup := (List.nodup_cons.1 hnodup').2
  have hnotex : node.state ∉ ex := inv.frNotEx node hmem_node
  have hex'_eq : ex.insert node.state = node.state :: ex :=
    List.insert_of_not_mem hnotex
  have hnodes := expand_nodes e2 alg node (ex.insert node.state)
    (nbrList m node.state) fr'
  have hreach_node : Reach m s0 node.state := inv.frReach node hmem_node
  -- facts about any produced child
  have hchild : ∀ ch ∈ (selectNew (ex.insert node.state)
      (fr'.nodes.map Node.state) (nbrList m node.state)).map
        (fun c => mkChild e2 alg node c.1 c.2),
      ch.state ∈ nbrStates m node.state ∧ ch.state ∉ ex.insert node.state ∧
      ch.state ∉ fr'.nodes.map Node.state := by
    intro ch hch
    obtain ⟨c, hcsel, rfl⟩ := List.mem_map.1 hch
    obtain ⟨hcn, hcex, hcfs⟩ := selectNew_sub hcsel
    rw [mkChild_state]
    exact ⟨List.mem_map.2 ⟨c, hcn, rfl⟩, hcex, hcfs⟩
  -- the new frontier's state list
  have hstates_new : (expand e2 alg node (ex.insert node.state)
      (nbrList m node.state) fr').nodes.map Node.state =
      fr'.nodes.map Node.state ++ (selectNew (ex.insert node.state)
        (fr'.nodes.map Node.state) (nbrList m node.state)).map Prod.snd := by
    rw [hnodes, List.map_append, List.map_map]
    congr 1
    simp only [Function.comp_def, mkChild_state]
  refine ⟨⟨?_, ?_, ?_, ?_, ?_, ?_, ?_, ?_, ?_, ?_⟩, hnotex⟩
  · -- nodupStates
    rw [hstates_new]
    exact selectNew_nodup hfs'_nodup
  · -- exNodup
    rw [hex'_eq]
    exact List.nodup_cons.2 ⟨hnotex, inv.exNodup⟩
  · -- frNotEx
    intro n hn
    rw [hnodes] at hn
    rcases List.mem_append.1 hn with hn | hn
    · intro hmem
      rcases List.mem_insert_iff.1 hmem with heq | hmem'
      · exact hns_notin (heq ▸ List.mem_map.2 ⟨n, hn, rfl⟩)
      · exact inv.frNotEx n (hsub n hn) hmem'
    · obtain ⟨c, hcsel, rfl⟩ := List.mem_map.1 hn
      obtain ⟨-, hcex, -⟩ := selectNew_sub hcsel
      rw [mkChild_state]
      exact hcex
  · -- exReach
    intro t ht
    rcases List.mem_insert_iff.1 ht with rfl | ht'
    · exact hreach_node
    · exact inv.exReach t ht'
  · -- frReach
    intro n hn
    rw [hnodes] at hn
    rcases List.mem_append.1 hn with hn | hn
    · exact inv.frReach n (hsub n hn)
    · obtain ⟨hnbr, -, -⟩ := hchild n hn
      exact reach_step hreach_node hnbr
  · -- closedNbrs
    intro t ht u hu
    rcases List.mem_insert_iff.1 ht with rfl | ht'
    · -- t is the freshly explored state
      by_cases hue : u ∈ ex.insert node.state
      · exact Or.inl hue
      · refine Or.inr ?_
        rw [hstates_new]
        rcases @selectNew_complete (nbrList m node.state)
            (List.insert node.state ex) (fr'.nodes.map Node.state) u hu hue
          with hin | hin
        · exact List.mem_append_left _ hin
        · exact List.mem_append_right _ hin
    · rcases inv.closedNbrs t ht' u hu with hin | hin
      · exact Or.inl (List.mem_insert_iff.2 (Or.inr hin))
      · rcases List.mem_cons.1 (hstates_perm.mem_iff.1 hin) with heq | hin'
        · exact Or.inl (List.mem_insert_iff.2 (Or.inl heq))
        · refine Or.inr ?_
          rw [hstates_new]
          exact List.mem_append_left _ hin'
  · -- startIn
    rcases inv.startIn with hin | hin
    · exact Or.inl (List.mem_insert_iff.2 (Or.inr hin))
    · rcases List.mem_cons.1 (hstates_perm.mem_iff.1 hin) with heq | hin'
      · exact Or.inl (List.mem_insert_iff.2 (Or.inl heq))
      · refine Or.inr ?_
        rw [hstates_new]
        exact List.mem_append_left _ hin'
  · -- goalNotEx
    intro hmem
    rcases List.mem_insert_iff.1 hmem with heq | hmem'
    · exact hgoal heq.symm
    · exact inv.goalNotEx hmem'
  · -- chains
    intro n hn
    rw [hnodes] at hn
    rcases List.mem_append.1 hn with hn | hn
    · exact inv.chains n (hsub n hn)
    · obtain ⟨c, hcsel, rfl⟩ := List.mem_map.1 hn
      obtain ⟨hcn, -, -⟩ := selectNew_sub hcsel
      obtain ⟨cc, hh, heq⟩ := mkChild_eq e2 alg node c.1 c.2
      rw [heq]
      exact ⟨List.mem_map.2 ⟨c, hcn, rfl⟩, inv.chains node hmem_node⟩
  · -- noStart
    intro n hn
    rw [hnodes] at hn
    rcases List.mem_append.1 hn with hn | hn
    · exact inv.noStart n (hsub n hn)
    · obtain ⟨c, hcsel, rfl⟩ := List.mem_map.1 hn
      obtain ⟨hcn, hcex, hcfs⟩ := selectNew_sub hcsel
      have hc2_ne : c.2 ≠ s0 := by
        intro heq
        subst heq
        rcases inv.startIn with hin | hin
        · exact hcex (List.mem_insert_iff.2 (Or.inr hin))
        · rcases List.mem_cons.1 (hstates_perm.mem_iff.1 hin) with heq' | hin'
          · exact hcex (List.mem_insert_iff.2 (Or.inl heq'))
          · exact hcfs hin'
      obtain ⟨cc, hh, heq⟩ := mkChild_eq e2 alg node c.1 c.2
      rw [heq]
      constructor
      · show s0 ∉ chainCells node ++ [c.2]
        intro hmem
        rcases List.mem_append.1 hmem with hmem | hmem
        · exact (inv.noStart node hmem_node).1 hmem
        · exact hc2_ne (List.mem_singleton.1 hmem).symm
      · intro hst
        exact absurd (show c.2 = s0 from hst) hc2_ne

/-- When the frontier is empty, every reachable state has been explored. -/
lemma exhaustion {m : Maze} {s0 e2 : Pos} {fr : Frontier} {ex : List Pos}
    (inv : GInv m s0 e2 fr ex) (hempty : fr.nodes = []) :
    ∀ t, Reach m s0 t → t ∈ ex := by
  have hstart : s0 ∈ ex := by
    rcases inv.startIn with h | h
    · exact h
    · rw [hempty] at h
      exact absurd h (by simp)
  have hclosed : ∀ t ∈ ex, ∀ u ∈ nbrStates m t, u ∈ ex := by
    intro t ht u hu
    rcases inv.closedNbrs t ht u hu with h | h
    · exact h
    · rw [hempty] at h
      exact absurd h (by simp)
  intro t ⟨k, hk⟩
  induction k generalizing t with
  | zero => exact (List.mem_singleton.1 hk) ▸ hstart
  | succ k' ih =>
    rcases mem_reachSet_succ.1 hk with h | ⟨p, hp, ht⟩
    · exact ih t h
    · exact hclosed p (ih p hp) t ht

/-! ### The markers are open cells -/

lemma findPosRow_spec : ∀ {row : List Char} {c : Char} {x0 x : Int},
    findPosRow row c x0 = some x →
    ∃ i : Nat, x = x0 + i ∧ row.get? i = some c := by
  intro row
  induction row with
  | nil =>
    intro c x0 x h
    exact absurd h (by simp [findPosRow])
  | cons d rest ih =>
    intro c x0 x h
    rw [findPosRow] at h
    by_cases hd : d = c
    · rw [if_pos hd] at h
      refine ⟨0, ?_, ?_⟩
      · simp only [Option.some.injEq] at h
        omega
      · rw [hd]
        rfl
    · rw [if_neg hd] at h
      obtain ⟨i, hx, hget⟩ := ih h
      exact ⟨i + 1, by omega, hget⟩

lemma findPosAux_spec : ∀ {g : List (List Char)} {c : Char} {y0 : Int} {p : Pos},
    findPosAux g c y0 = some p →
    ∃ j : Nat, p.2 = y0 + j ∧ ∃ row, g.get? j = some row ∧
      ∃ i : Nat, p.1 = (i : Int) ∧ row.get? i = some c := by
  intro g
  induction g with
  | nil =>
    intro c y0 p h
    exact absurd h (by simp [findPosAux])
  | cons row rest ih =>
    intro c y0 p h
    rw [findPosAux] at h
    cases hr : findPosRow row c 0 with
    | some x =>
      simp only [hr, Option.some.injEq] at h
      obtain ⟨i, hx, hget⟩ := findPosRow_spec hr
      refine ⟨0, ?_, row, rfl, i, ?_, hget⟩
      · rw [← h]
        simp
      · rw [← h]
        simpa using hx
    | none =>
      simp only [hr] at h
      obtain ⟨j, hy, row', hrow', hrest⟩ := ih h
      exact ⟨j + 1, by omega, row', hrow', hrest⟩

/-- A marker found by `find_position` sits on an open in-bounds cell. -/
lemma find_position_open {m : Maze} (hv : ValidMaze m) {ch : Char} {p : Pos}
    (hch : ch ≠ '#') (h : find_position m.grid ch = some p) :
    isOpen m p = true ∧ cellAt m p = ch := by
  obtain ⟨-, hh, hw, -⟩ := hv
  obtain ⟨j, hy, row, hrow, i, hx, hget⟩ := findPosAux_spec h
  have hy' : p.2 = (j : Int) := by
    rw [hy]
    omega
  have hjlen : j < m.grid.length := by
    rcases List.get?_eq_some.1 hrow with ⟨hlt, -⟩
    exact hlt
  have hrmem : row ∈ m.grid := List.get?_mem hrow
  have hilen : i < row.length := by
    rcases List.get?_eq_some.1 hget with ⟨hlt, -⟩
    exact hlt
  have hiw : i < m.width := by
    rw [← hw row hrmem]
    exact hilen
  have hcell : cellAt m p = ch := by
    unfold cellAt
    rw [hy', hx]
    simp only [Int.toNat_ofNat]
    simp only [hrow, hget]
  refine ⟨?_, hcell⟩
  simp only [isOpen, decide_eq_true_eq]
  refine ⟨?_, ?_, ?_, ?_, ?_⟩
  · rw [hx]
    exact Int.natCast_nonneg i
  · rw [hx]
    exact_mod_cast hiw
  · rw [hy']
    exact Int.natCast_nonneg j
  · rw [hy', hh]
    exact_mod_cast hjlen
  · rw [hcell]
    exact hch

/-- The start and goal cells of a valid maze are distinct. -/
lemma markers_ne {m : Maze} (hv : ValidMaze m) {s e2 : Pos}
    (hs : m.startPos = some s) (he : m.endPos = some e2) : s ≠ e2 := by
  have hsA : find_position m.grid 'A' = some s := hv.2.2.2.1.symm.trans hs
  have heB : find_position m.grid 'B' = some e2 := hv.2.2.2.2.1.symm.trans he
  have h1 := (find_position_open hv (by decide) hsA).2
  have h2 := (find_position_open hv (by decide) heB).2
  intro heq
  rw [heq, h2] at h1
  exact absurd h1 (by decide)

/-- The start cell of a valid maze is open. -/
lemma start_open {m : Maze} (hv : ValidMaze m) {s : Pos}
    (hs : m.startPos = some s) : isOpen m s = true :=
  (find_position_open hv (by decide) (hv.2.2.2.1.symm.trans hs)).1

/-! ### The explored set cannot outgrow the grid -/

/-- Linear index of a position. -/
def toIdx (m : Maze) (p : Pos) : Nat := p.2.toNat * m.width + p.1.toNat

lemma toIdx_lt {m : Maze} {p : Pos} (h : isOpen m p = true) :
    toIdx m p < m.height * m.width := by
  simp only [isOpen, decide_eq_true_eq] at h
  obtain ⟨h1, h2, h3, h4, -⟩ := h
  have hx : p.1.toNat < m.width := (Int.toNat_lt h1).2 h2
  have hy : p.2.toNat < m.height := (Int.toNat_lt h3).2 h4
  have step1 : p.2.toNat * m.width + p.1.toNat < (p.2.toNat + 1) * m.width := by
    rw [Nat.succ_mul]
    omega
  exact Nat.lt_of_lt_of_le step1 (Nat.mul_le_mul_right _ hy)

lemma toIdx_inj {m : Maze} {p q : Pos} (hp : isOpen m p = true)
    (hq : isOpen m q = true) (heq : toIdx m p = toIdx m q) : p = q := by
  simp only [isOpen, decide_eq_true_eq] at hp hq
  obtain ⟨hp1, hp2, hp3, hp4, -⟩ := hp
  obtain ⟨hq1, hq2, hq3, hq4, -⟩ := hq
  have hpx : p.1.toNat < m.width := (Int.toNat_lt hp1).2 hp2
  have hqx : q.1.toNat < m.width := (Int.toNat_lt hq1).2 hq2
  unfold toIdx at heq
  have hW : 0 < m.width := Nat.pos_of_ne_zero (by omega)
  have hmod : p.1.toNat = q.1.toNat := by
    have e1 : (p.1.toNat + p.2.toNat * m.width) % m.width = p.1.toNat := by
      rw [Nat.add_mul_mod_self_right]
      exact Nat.mod_eq_of_lt hpx
    have e2 : (q.1.toNat + q.2.toNat * m.width) % m.width = q.1.toNat := by
      rw [Nat.add_mul_mod_self_right]
      exact Nat.mod_eq_of_lt hqx
    rw [← e1, ← e2]
    congr 1
    omega
  have hdiv : p.2.toNat = q.2.toNat := by
    have e1 : (p.1.toNat + p.2.toNat * m.width) / m.width = p.2.toNat := by
      rw [Nat.add_mul_div_right _ _ hW, Nat.div_eq_of_lt hpx]
      omega
    have e2 : (q.1.toNat + q.2.toNat * m.width) / m.width = q.2.toNat := by
      rw [Nat.add_mul_div_right _ _ hW, Nat.div_eq_of_lt hqx]
      omega
    rw [← e1, ← e2]
    congr 1
    omega
  have hx : p.1 = q.1 := by
    rw [← Int.toNat_of_nonneg hp1, ← Int.toNat_of_nonneg hq1, hmod]
  have hy : p.2 = q.2 := by
    rw [← Int.toNat_of_nonneg hp3, ← Int.toNat_of_nonneg hq3, hdiv]
  exact Prod.ext hx hy

lemma explored_card {m : Maze} {s0 : Pos} (hso : isOpen m s0 = true)
    {ex : List Pos} (hnd : ex.Nodup) (hre : ∀ t ∈ ex, Reach m s0 t) :
    ex.length ≤ m.height * m.width := by
  have hopen : ∀ t ∈ ex, isOpen m t = true := by
    intro t ht
    rcases reach_isOpen (hre t ht) with rfl | h
    · exact hso
    · exact h
  have hmapnd : (ex.map (toIdx m)).Nodup :=
    List.Nodup.map_on
      (fun a ha b hb hab => toIdx_inj (hopen a ha) (hopen b hb) hab) hnd
  have hsub : ex.map (toIdx m) ⊆ List.range (m.height * m.width) := by
    intro i hi
    obtain ⟨t, ht, rfl⟩ := List.mem_map.1 hi
    exact List.mem_range.2 (toIdx_lt (hopen t ht))
  have hle := List.Subperm.length_le (List.Nodup.subperm hmapnd hsub)
  simpa using hle

/-- The fuel `solve` supplies covers the whole grid. -/
lemma fuel_eq {m : Maze} (hv : ValidMaze m) :
    m.fuel = m.height * m.width + 2 := by
  unfold Maze.fuel
  obtain ⟨-, hh, hw, -⟩ := hv
  have hrep : m.grid.map List.length = List.replicate m.grid.length m.width := by
    have hlen : (m.grid.map List.length).length = m.grid.length := List.length_map _ _
    have := List.eq_replicate_of_mem (a := m.width)
      (l := m.grid.map List.length) ?_
    · rw [this, hlen]
    · intro b hb
      obtain ⟨row, hrow, rfl⟩ := List.mem_map.1 hb
      exact hw row hrow
  rw [hrep, List.sum_replicate, smul_eq_mul, ← hh]

/-! ### The master run lemma -/

/-- Running the loop from any invariant state with enough fuel terminates
without error: either the frontier was exhausted — and then the explored
set is exactly the reachable set and the goal was never reached — or a
node carrying the goal state was popped and its parent chain is returned. -/
lemma masterLoop {m : Maze} {s0 e2 : Pos} {alg : String}
    (hv : ValidMaze m) (hso : isOpen m s0 = true) :
    ∀ (fuel : Nat) (fr : Frontier) (ex : List Pos),
    GInv m s0 e2 fr ex →
    m.height * m.width + 1 ≤ fuel + ex.length →
    ∃ r ex', solveLoop m e2 alg fuel fr ex = .ok (r, ex') ∧
      ((r = none ∧ (∀ t, t ∈ ex' ↔ Reach m s0 t) ∧ e2 ∉ ex') ∨
       (∃ p nd, r = some p ∧ ChainOk m s0 nd ∧ nd.state = e2 ∧
         p = chainCells nd ∧ s0 ∉ p ∧ (nd.state = s0 → p = []))) := by
  intro fuel
  induction fuel with
  | zero =>
    intro fr ex inv hb
    have := explored_card hso inv.exNodup inv.exReach
    omega
  | succ n ih =>
    intro fr ex inv hb
    rw [solveLoop]
    cases hfe : fr.isEmpty with
    | true =>
      rw [if_pos rfl]
      refine ⟨none, ex, rfl, Or.inl ⟨rfl, ?_, inv.goalNotEx⟩⟩
      intro t
      exact ⟨fun ht => inv.exReach t ht,
        fun hr => exhaustion inv ((isEmpty_iff fr).1 hfe) t hr⟩
    | false =>
      rw [if_neg Bool.false_ne_true]
      obtain ⟨node, fr', hrem⟩ := remove_of_not_empty hfe
      rw [hrem]
      simp only [exbind_ok]
      by_cases hgoal : node.state = e2
      · rw [if_pos hgoal]
        have hmem : node ∈ fr.nodes :=
          (remove_perm hrem).mem_iff.2 (List.mem_cons_self _ _)
        exact ⟨some (chainCells node), ex, rfl, Or.inr ⟨chainCells node, node,
          rfl, inv.chains node hmem, hgoal, rfl, (inv.noStart node hmem).1,
          (inv.noStart node hmem).2⟩⟩
      · rw [if_neg hgoal]
        rw [neighbors_eq hv node.state]
        simp only [exbind_ok]
        obtain ⟨inv', hnot⟩ := @step_inv m s0 e2 alg fr fr' node ex inv hrem hgoal
        have hlen : (ex.insert node.state).length = ex.length + 1 :=
          List.length_insert_of_not_mem hnot
        exact ih _ _ inv' (by omega)

lemma initialFrontier_nodes {alg : String} {fr0 : Frontier}
    (hi : initialFrontier alg = .ok fr0) : fr0.nodes = [] := by
  unfold initialFrontier at hi
  split at hi
  · simp only [Except.ok.injEq] at hi
    rw [← hi]
    rfl
  · split at hi
    · simp only [Except.ok.injEq] at hi
      rw [← hi]
      rfl
    · split at hi
      · simp only [Except.ok.injEq] at hi
        rw [← hi]
        rfl
      · exact absurd hi (by simp)

lemma solveCore_master {m : Maze} {s0 e2 : Pos} {alg : String} {fr0 : Frontier}
    (hv : ValidMaze m) (hso : isOpen m s0 = true)
    (hi : initialFrontier alg = .ok fr0) :
    ∃ r ex', solveCore m s0 e2 alg = .ok (r, ex') ∧
      ((r = none ∧ (∀ t, t ∈ ex' ↔ Reach m s0 t) ∧ e2 ∉ ex') ∨
       (∃ p nd, r = some p ∧ ChainOk m s0 nd ∧ nd.state = e2 ∧
         p = chainCells nd ∧ s0 ∉ p ∧ (nd.state = s0 → p = []))) := by
  unfold solveCore
  rw [hi]
  simp only [exbind_ok]
  have hinit := ginv_init m s0 e2 fr0 0 (manhattan s0 e2) (initialFrontier_nodes hi)
  have hbound : m.height * m.width + 1 ≤ m.fuel + ([] : List Pos).length := by
    rw [fuel_eq hv]
    simp
  exact masterLoop hv hso m.fuel _ [] hinit hbound

lemma supported_initial {alg : String}
    (halg : alg ∈ (["bfs", "dfs", "greedy", "astar"] : List String)) :
    ∃ fr0, initialFrontier alg = .ok fr0 := by
  simp only [List.mem_cons, List.mem_singleton] at halg
  rcases halg with rfl | rfl | rfl | rfl | h
  · exact ⟨_, rfl⟩
  · exact ⟨_, rfl⟩
  · exact ⟨_, rfl⟩
  · exact ⟨_, rfl⟩
  · exact absurd h (by simp)

/-- C7: on a valid maze whose goal is unreachable, every supported
algorithm terminates with the non-exceptional no-path result, and the
explored set at termination is exactly the set of cells reachable from the
start. -/
theorem claim_c7 (m : Maze) (s e2 : Pos) (alg : String)
    (hv : ValidMaze m) (hs : m.startPos = some s) (he : m.endPos = some e2)
    (hur : ¬ Reach m s e2)
    (halg : alg ∈ (["bfs", "dfs", "greedy", "astar"] : List String)) :
    ∃ ex, solveCore m s e2 alg = .ok (none, ex) ∧
      (∀ t, t ∈ ex ↔ Reach m s t) ∧ Maze.solve m alg = .ok none := by
  have hso := start_open hv hs
  obtain ⟨fr0, hi⟩ := supported_initial halg
  obtain ⟨r, ex, hloop, hdich⟩ := @solveCore_master m s e2 alg fr0 hv hso hi
  rcases hdich with ⟨rfl, hiff, -⟩ | ⟨p, nd, rfl, hok, hst, -, -, -⟩
  · refine ⟨ex, hloop, hiff, ?_⟩
    rw [solve_eq_core alg hs he, hloop]
    rfl
  · have := pathFrom_reach (reach_self m s) (chainOk_path hok)
    rw [hst] at this
    exact absurd this hur

lemma reachSet_saturate {m : Maze} {s0 : Pos} {k : Nat}
    (hsat : ∀ t ∈ reachSet m s0 (k + 1), t ∈ reachSet m s0 k) :
    ∀ (j : Nat), ∀ t ∈ reachSet m s0 j, t ∈ reachSet m s0 k := by
  intro j
  induction j with
  | zero =>
    intro t ht
    exact reachSet_mono (Nat.zero_le k) ht
  | succ j' ih =>
    intro t ht
    rcases mem_reachSet_succ.1 ht with h | ⟨p, hp, hnb⟩
    · exact ih t h
    · exact hsat t (mem_reachSet_succ.2 (Or.inr ⟨p, ih p hp, hnb⟩))

lemma not_reach_of_saturated {m : Maze} {s0 t : Pos} {k : Nat}
    (hsat : ∀ u ∈ reachSet m s0 (k + 1), u ∈ reachSet m s0 k)
    (hnot : t ∉ reachSet m s0 k) : ¬ Reach m s0 t :=
  fun ⟨j, hj⟩ => hnot (reachSet_saturate hsat j t hj)

/-- Witness for C7 on the unsolvable maze `["A..", "###", "..B"]`. -/
theorem claim_c7_witness :
    ∃ ex, solveCore ⟨[['A', '.', '.'], ['#', '#', '#'], ['.', '.', 'B']],
      some (0, 0), some (2, 2), 3, 3⟩ (0, 0) (2, 2) "astar" = .ok (none, ex) ∧
      (∀ t, t ∈ ex ↔ Reach ⟨[['A', '.', '.'], ['#', '#', '#'], ['.', '.', 'B']],
        some (0, 0), some (2, 2), 3, 3⟩ (0, 0) t) ∧
      Maze.solve ⟨[['A', '.', '.'], ['#', '#', '#'], ['.', '.', 'B']],
        some (0, 0), some (2, 2), 3, 3⟩ "astar" = .ok none :=
  claim_c7 ⟨[['A', '.', '.'], ['#', '#', '#'], ['.', '.', 'B']],
      some (0, 0), some (2, 2), 3, 3⟩ (0, 0) (2, 2) "astar"
    (by decide) rfl rfl
    (not_reach_of_saturated (k := 3) (by decide) (by decide))
    (by decide)

/-- C6: on a valid maze with a reachable goal, `depth_first` (`dfs`) and
`greedy_best_first` (`greedy`) return a valid path: nonempty, each step an
axis-aligned move to an open in-bounds cell (so the first cell is adjacent
to the start), ending at the goal. -/
theorem claim_c6 (m : Maze) (s e2 : Pos) (alg : String)
    (hv : ValidMaze m) (hs : m.startPos = some s) (he : m.endPos = some e2)
    (hr : Reach m s e2) (halg : alg ∈ (["dfs", "greedy"] : List String)) :
    ∃ p, Maze.solve m alg = .ok (some p) ∧ p ≠ [] ∧ PathFrom m s p e2 ∧
      List.Chain (fun u v => manhattan u v = 1 ∧ isOpen m v = true) s p ∧
      p.getLast? = some e2 := by
  have hso := start_open hv hs
  have hi : ∃ fr0, initialFrontier alg = .ok fr0 := by
    simp only [List.mem_cons, List.mem_singleton] at halg
    rcases halg with rfl | rfl | h
    · exact ⟨_, rfl⟩
    · exact ⟨_, rfl⟩
    · exact absurd h (by simp)
  obtain ⟨fr0, hi⟩ := hi
  obtain ⟨r, ex, hloop, hdich⟩ := @solveCore_master m s e2 alg fr0 hv hso hi
  rcases hdich with ⟨rfl, hiff, hnot⟩ | ⟨p, nd, rfl, hok, hst, hcells, hnostart, -⟩
  · exact absurd ((hiff e2).2 hr) hnot
  · have hpath : PathFrom m s p e2 := by
      rw [hcells, ← hst]
      exact chainOk_path hok
    have hne : p ≠ [] := by
      intro hnil
      rw [hnil] at hpath
      exact markers_ne hv hs he hpath
    refine ⟨p, ?_, hne, hpath, pathFrom_chain hpath, pathFrom_last hpath hne⟩
    rw [solve_eq_core alg hs he, hloop]
    rfl

/-- Witness for C6 on the maze `["A.B"]` with `greedy`. -/
theorem claim_c6_witness :
    ∃ p, Maze.solve ⟨[['A', '.', 'B']], some (0, 0), some (2, 0), 3, 1⟩
        "greedy" = .ok (some p) ∧ p ≠ [] ∧
      PathFrom ⟨[['A', '.', 'B']], some (0, 0), some (2, 0), 3, 1⟩ (0, 0) p (2, 0) ∧
      List.Chain (fun u v => manhattan u v = 1 ∧
        isOpen ⟨[['A', '.', 'B']], some (0, 0), some (2, 0), 3, 1⟩ v = true)
        (0, 0) p ∧
      p.getLast? = some (2, 0) :=
  claim_c6 ⟨[['A', '.', 'B']], some (0, 0), some (2, 0), 3, 1⟩ (0, 0) (2, 0)
    "greedy" (by decide) rfl rfl ⟨2, by decide⟩ (by decide)

/-- C5: on a valid maze, any path a successful `solve` returns excludes the
start cell; if start equalled goal the path would be empty, and otherwise
its last cell is the goal. -/
theorem claim_c5 (m : Maze) (s e2 : Pos) (alg : String) (p : List Pos)
    (hv : ValidMaze m) (hs : m.startPos = some s) (he : m.endPos = some e2)
    (halg : alg ∈ (["bfs", "dfs", "greedy", "astar"] : List String))
    (hsolve : Maze.solve m alg = .ok (some p)) :
    s ∉ p ∧ (s = e2 → p = []) ∧ p.getLast? = some e2 := by
  have hso := start_open hv hs
  obtain ⟨fr0, hi⟩ := supported_initial halg
  obtain ⟨r, ex, hloop, hdich⟩ := @solveCore_master m s e2 alg fr0 hv hso hi
  rw [solve_eq_core alg hs he, hloop] at hsolve
  rcases hdich with ⟨rfl, -, -⟩ | ⟨q, nd, rfl, hok, hst, hcells, hnostart, hempty⟩
  · simp only [exmap_ok, Except.ok.injEq] at hsolve
    exact Option.noConfusion hsolve
  · simp only [exmap_ok, Except.ok.injEq, Option.some.injEq] at hsolve
    subst hsolve
    have hpath : PathFrom m s q e2 := by
      rw [hcells, ← hst]
      exact chainOk_path hok
    have hne : q ≠ [] := by
      intro hnil
      rw [hnil] at hpath
      exact markers_ne hv hs he hpath
    refine ⟨hnostart, ?_, pathFrom_last hpath hne⟩
    intro hse
    exact hempty (by rw [hst, hse])

/-- Witness for C5 on the maze `["A.B"]` with `bfs`. -/
theorem claim_c5_witness :
    (0, 0) ∉ ([(1, 0), (2, 0)] : List Pos) ∧
    ((0, 0) = ((2, 0) : Pos) → ([(1, 0), (2, 0)] : List Pos) = []) ∧
    ([(1, 0), (2, 0)] : List Pos).getLast? = some (2, 0) :=
  claim_c5 ⟨[['A', '.', 'B']], some (0, 0), some (2, 0), 3, 1⟩ (0, 0) (2, 0)
    "bfs" [(1, 0), (2, 0)] (by decide) rfl rfl (by decide) rfl

/-! ### Breadth-first search returns a shortest path -/

lemma mkChild_bfs (e2 : Pos) (nd : Node) (a : String) (s : Pos) :
    mkChild e2 "bfs" nd a s = .child s nd a (nd.cost + 1) 0 := by
  unfold mkChild
  rw [if_neg (by decide), if_neg (by decide)]

/-- The queue-specific part of the breadth-first invariant. -/
structure QInv (m : Maze) (s0 : Pos) (l : List Node) (ex : List Pos) : Prop where
  sorted : l.Pairwise (fun a b => a.cost ≤ b.cost)
  within : ∀ a ∈ l, ∀ b ∈ l, a.cost ≤ b.cost + 1
  costDist : ∀ n ∈ l, IsDistN m s0 n.state n.cost
  costLen : ∀ n ∈ l, n.cost = (chainCells n).length
  lowExplored : ∀ t k, IsDistN m s0 t k → (∀ a ∈ l, k < a.cost) → t ∈ ex

lemma expand_variant_queue (e2 : Pos) (alg : String) (node : Node) (ex : List Pos) :
    ∀ (nbrs : List (String × Pos)) (l : List Node),
    ∃ l', expand e2 alg node ex nbrs (.queue l) = .queue l' := by
  intro nbrs
  induction nbrs with
  | nil =>
    intro l
    exact ⟨l, rfl⟩
  | cons c rest ih =>
    intro l
    obtain ⟨a, s⟩ := c
    rw [expand]
    by_cases hcond :
        (!(ex.contains s) && !((Frontier.queue l).containsState s)) = true
    · rw [if_pos hcond]
      exact ih (l ++ [mkChild e2 alg node a s])
    · rw [if_neg hcond]
      exact ih l

lemma expand_queue (e2 : Pos) (alg : String) (node : Node) (ex : List Pos)
    (nbrs : List (String × Pos)) (l : List Node) :
    expand e2 alg node ex nbrs (.queue l) =
      .queue (l ++ (selectNew ex (l.map Node.state) nbrs).map
        (fun c => mkChild e2 alg node c.1 c.2)) := by
  obtain ⟨l', hl'⟩ := expand_variant_queue e2 alg node ex nbrs l
  have hn := expand_nodes e2 alg node ex nbrs (.queue l)
  rw [hl'] at hn
  rw [hl']
  exact congrArg Frontier.queue hn

/-- Everything known about a child produced by a `bfs` expansion of `nd`. -/
lemma bfs_child_facts {e2 : Pos} {nd : Node} {ex' fs : List Pos}
    {nbrs : List (String × Pos)} {ch : Node}
    (hch : ch ∈ (selectNew ex' fs nbrs).map
      (fun c => mkChild e2 "bfs" nd c.1 c.2)) :
    ch.cost = nd.cost + 1 ∧ ch.state ∈ nbrs.map Prod.snd ∧
    ch.state ∉ ex' ∧ ch.state ∉ fs ∧
    chainCells ch = chainCells nd ++ [ch.state] := by
  obtain ⟨c, hcsel, rfl⟩ := List.mem_map.1 hch
  obtain ⟨hcn, hcex, hcfs⟩ := selectNew_sub hcsel
  rw [mkChild_bfs]
  exact ⟨rfl, List.mem_map.2 ⟨c, hcn, rfl⟩, hcex, hcfs, rfl⟩

/-- One `bfs` iteration preserves the queue invariant. -/
lemma qinv_step {m : Maze} {s0 e2 : Pos} {nd : Node} {tl : List Node}
    {ex : List Pos}
    (inv : GInv m s0 e2 (.queue (nd :: tl)) ex)
    (qinv : QInv m s0 (nd :: tl) ex)
    (inv' : GInv m s0 e2 (.queue (tl ++ (selectNew (ex.insert nd.state)
      (tl.map Node.state) (nbrList m nd.state)).map
        (fun c => mkChild e2 "bfs" nd c.1 c.2))) (ex.insert nd.state)) :
    QInv m s0 (tl ++ (selectNew (ex.insert nd.state)
      (tl.map Node.state) (nbrList m nd.state)).map
        (fun c => mkChild e2 "bfs" nd c.1 c.2)) (ex.insert nd.state) := by
  have hmemnd : nd ∈ (Frontier.queue (nd :: tl)).nodes := List.mem_cons_self _ _
  have hndmin : ∀ b ∈ tl, nd.cost ≤ b.cost := (List.pairwise_cons.1 qinv.sorted).1
  have htl_sorted : tl.Pairwise (fun a b => a.cost ≤ b.cost) :=
    (List.pairwise_cons.1 qinv.sorted).2
  have hnd_dist : IsDistN m s0 nd.state nd.cost :=
    qinv.costDist nd (List.mem_cons_self _ _)
  -- every freshly discovered child has exact distance nd.cost + 1
  have hchild_dist : ∀ ch ∈ (selectNew (ex.insert nd.state)
      (tl.map Node.state) (nbrList m nd.state)).map
        (fun c => mkChild e2 "bfs" nd c.1 c.2),
      IsDistN m s0 ch.state (nd.cost + 1) := by
    intro ch hch
    obtain ⟨hcost, hnbr, hex', hfs, -⟩ := bfs_child_facts hch
    have hmem1 : ch.state ∈ reachSet m s0 (nd.cost + 1) :=
      mem_reachSet_succ.2 (Or.inr ⟨nd.state, hnd_dist.1, hnbr⟩)
    obtain ⟨j, hj⟩ := reach_dist ⟨nd.cost + 1, hmem1⟩
    have hj_le : j ≤ nd.cost + 1 := hj.2 _ hmem1
    have hnotex' : ch.state ∉ ex.insert nd.state := hex'
    have hj_ge : nd.cost + 1 ≤ j := by
      by_contra hlt
      push_neg at hlt
      have hj_le_c : j ≤ nd.cost := by omega
      cases hjz : j with
      | zero =>
        rw [hjz] at hj
        have : ch.state = s0 := isDistN_zero hj
        rcases inv.startIn with hin | hin
        · exact hnotex' (this ▸ List.mem_insert_iff.2 (Or.inr hin))
        · rcases List.mem_cons.1 hin with heq | hin'
          · exact hnotex' (this ▸ heq ▸ List.mem_insert_iff.2 (Or.inl rfl))
          · exact hfs (this ▸ hin')
      | succ j' =>
        rw [hjz] at hj
        obtain ⟨p, hp, hpn⟩ := isDistN_pred hj
        have hp_ex : p ∈ ex := by
          refine qinv.lowExplored p j' hp ?_
          intro a ha
          have : nd.cost ≤ a.cost := by
            rcases List.mem_cons.1 ha with rfl | ha'
            · exact le_refl _
            · exact hndmin a ha'
          omega
        rcases inv.closedNbrs p hp_ex ch.state hpn with hin | hin
        · exact hnotex' (List.mem_insert_iff.2 (Or.inr hin))
        · rcases List.mem_cons.1 hin with heq | hin'
          · exact hnotex' (heq ▸ List.mem_insert_iff.2 (Or.inl rfl))
          · exact hfs hin'
    have : j = nd.cost + 1 := by omega
    rw [← this]
    exact hj
  refine ⟨?_, ?_, ?_, ?_, ?_⟩
  · -- sorted
    rw [List.pairwise_append]
    refine ⟨htl_sorted, ?_, ?_⟩
    · have hall : ∀ (L : List Node), (∀ x ∈ L, x.cost = nd.cost + 1) →
          L.Pairwise (fun a b => a.cost ≤ b.cost) := by
        intro L hL
        induction L with
        | nil => exact List.Pairwise.nil
        | cons x xs ih =>
          refine List.Pairwise.cons ?_ (ih fun y hy => hL y (List.mem_cons_of_mem _ hy))
          intro y hy
          rw [hL x (List.mem_cons_self _ _), hL y (List.mem_cons_of_mem _ hy)]
      exact hall _ (fun x hx => (bfs_child_facts hx).1)
    · intro a ha b hb
      obtain ⟨hcost, -, -, -, -⟩ := bfs_child_facts hb
      rw [hcost]
      exact qinv.within a (List.mem_cons_of_mem _ ha) nd (List.mem_cons_self _ _)
  · -- within
    intro a ha b hb
    rcases List.mem_append.1 ha with ha' | ha' <;>
      rcases List.mem_append.1 hb with hb' | hb'
    · exact qinv.within a (List.mem_cons_of_mem _ ha') b (List.mem_cons_of_mem _ hb')
    · obtain ⟨hcost, -, -, -, -⟩ := bfs_child_facts hb'
      rw [hcost]
      have := qinv.within a (List.mem_cons_of_mem _ ha') nd (List.mem_cons_self _ _)
      omega
    · obtain ⟨hcost, -, -, -, -⟩ := bfs_child_facts ha'
      rw [hcost]
      have := hndmin b hb'
      omega
    · obtain ⟨hc1, -, -, -, -⟩ := bfs_child_facts ha'
      obtain ⟨hc2, -, -, -, -⟩ := bfs_child_facts hb'
      rw [hc1, hc2]
      omega
  · -- costDist
    intro n hn
    rcases List.mem_append.1 hn with hn' | hn'
    · exact qinv.costDist n (List.mem_cons_of_mem _ hn')
    · obtain ⟨hcost, -, -, -, -⟩ := bfs_child_facts hn'
      rw [hcost]
      exact hchild_dist n hn'
  · -- costLen
    intro n hn
    rcases List.mem_append.1 hn with hn' | hn'
    · exact qinv.costLen n (List.mem_cons_of_mem _ hn')
    · obtain ⟨hcost, -, -, -, hcells⟩ := bfs_child_facts hn'
      rw [hcost, hcells, List.length_append, List.length_singleton,
        ← qinv.costLen nd (List.mem_cons_self _ _)]
  · -- lowExplored
    intro t k hd hlow
    rcases Nat.lt_trichotomy k nd.cost with hk | hk | hk
    · -- below the popped cost: was explored already
      refine List.mem_insert_iff.2 (Or.inr (qinv.lowExplored t k hd ?_))
      intro a ha
      rcases List.mem_cons.1 ha with rfl | ha'
      · exact hk
      · exact hlow a (List.mem_append_left _ ha')
    · -- exactly the popped cost
      by_cases hts : t = nd.state
      · exact List.mem_insert_iff.2 (Or.inl hts)
      · cases hkz : k with
        | zero =>
          have ht0 : t = s0 := isDistN_zero (hkz ▸ hd)
          have hnd0 : nd.state = s0 := by
            have h0 : nd.cost = 0 := by omega
            exact isDistN_zero (h0 ▸ hnd_dist)
          exact absurd (ht0.trans hnd0.symm) hts
        | succ k' =>
          obtain ⟨p, hp, hpn⟩ := isDistN_pred (hkz ▸ hd)
          have hp_ex : p ∈ ex := by
            refine qinv.lowExplored p k' hp ?_
            intro a ha
            have hge : nd.cost ≤ a.cost := by
              rcases List.mem_cons.1 ha with rfl | ha'
              · exact le_refl _
              · exact hndmin a ha'
            omega
          rcases inv.closedNbrs p hp_ex t hpn with hin | hin
          · exact List.mem_insert_iff.2 (Or.inr hin)
          · rcases List.mem_cons.1 hin with heq | hin'
            · exact absurd heq hts
            · obtain ⟨a, ha, hast⟩ := List.mem_map.1 hin'
              have hadist := qinv.costDist a (List.mem_cons_of_mem _ ha)
              rw [hast] at hadist
              have ha_eq : a.cost = k := isDistN_unique hadist hd
              have hlow_a := hlow a (List.mem_append_left _ ha)
              omega
    · -- above the popped cost: the new frontier must be empty
      have htl_nil : tl = [] := by
        cases htl : tl with
        | nil => rfl
        | cons b bs =>
          have hb_mem : b ∈ nd :: tl := by
            rw [htl]
            exact List.mem_cons_of_mem _ (List.mem_cons_self _ _)
          have h1 := qinv.within b hb_mem nd (List.mem_cons_self _ _)
          have h2 := hlow b (List.mem_append_left _ (by
            rw [htl]
            exact List.mem_cons_self _ _))
          omega
      have hch_nil : (selectNew (ex.insert nd.state)
          (tl.map Node.state) (nbrList m nd.state)).map
            (fun c => mkChild e2 "bfs" nd c.1 c.2) = [] := by
        cases hch : (selectNew (ex.insert nd.state)
            (tl.map Node.state) (nbrList m nd.state)).map
              (fun c => mkChild e2 "bfs" nd c.1 c.2) with
        | nil => rfl
        | cons ch chs =>
          have hch_mem : ch ∈ (selectNew (ex.insert nd.state)
              (tl.map Node.state) (nbrList m nd.state)).map
                (fun c => mkChild e2 "bfs" nd c.1 c.2) := by
            rw [hch]
            exact List.mem_cons_self _ _
          obtain ⟨hcost, -, -, -, -⟩ := bfs_child_facts hch_mem
          have := hlow ch (List.mem_append_right _ hch_mem)
          omega
      have hnodes_nil : (Frontier.queue (tl ++ (selectNew (ex.insert nd.state)
          (tl.map Node.state) (nbrList m nd.state)).map
            (fun c => mkChild e2 "bfs" nd c.1 c.2))).nodes = [] := by
        show tl ++ _ = []
        rw [hch_nil, htl_nil]
        rfl
      exact exhaustion inv' hnodes_nil t ⟨k, hd.1⟩

/-- The breadth-first run lemma: from any invariant state with a reachable
goal, the loop returns a path whose length is the exact goal distance. -/
lemma bfsLoop {m : Maze} {s0 e2 : Pos}
    (hv : ValidMaze m) (hso : isOpen m s0 = true) (hr : Reach m s0 e2) :
    ∀ (fuel : Nat) (l : List Node) (ex : List Pos),
    GInv m s0 e2 (.queue l) ex → QInv m s0 l ex →
    m.height * m.width + 1 ≤ fuel + ex.length →
    ∃ p ex' k, solveLoop m e2 "bfs" fuel (.queue l) ex = .ok (some p, ex') ∧
      IsDistN m s0 e2 k ∧ p.length = k := by
  intro fuel
  induction fuel with
  | zero =>
    intro l ex inv qinv hb
    have := explored_card hso inv.exNodup inv.exReach
    omega
  | succ n ih =>
    intro l ex inv qinv hb
    cases l with
    | nil =>
      exact absurd (exhaustion inv rfl e2 hr) inv.goalNotEx
    | cons nd tl =>
      rw [solveLoop]
      rw [if_neg (show ¬((Frontier.queue (nd :: tl)).isEmpty = true) by
        simp [Frontier.isEmpty])]
      rw [show (Frontier.queue (nd :: tl)).remove = .ok (nd, .queue tl) from rfl]
      simp only [exbind_ok]
      by_cases hgoal : nd.state = e2
      · rw [if_pos hgoal]
        refine ⟨chainCells nd, ex, nd.cost, rfl, ?_,
          (qinv.costLen nd (List.mem_cons_self _ _)).symm⟩
        have h := qinv.costDist nd (List.mem_cons_self _ _)
        rwa [hgoal] at h
      · rw [if_neg hgoal, neighbors_eq hv nd.state]
        simp only [exbind_ok]
        have hrem : (Frontier.queue (nd :: tl)).remove = .ok (nd, .queue tl) := rfl
        obtain ⟨inv', hnot⟩ :=
          @step_inv m s0 e2 "bfs" (.queue (nd :: tl)) (.queue tl) nd ex inv hrem hgoal
        rw [expand_queue] at inv' ⊢
        have hq' := qinv_step inv qinv inv'
        have hlen : (ex.insert nd.state).length = ex.length + 1 :=
          List.length_insert_of_not_mem hnot
        exact ih _ _ inv' hq' (by omega)

lemma isDistN_of_mem {m : Maze} {s0 t : Pos} {k : Nat}
    (hmem : t ∈ reachSet m s0 (k + 1)) (hnot : t ∉ reachSet m s0 k) :
    IsDistN m s0 t (k + 1) :=
  ⟨hmem, fun j hj => by
    by_contra hlt
    push_neg at hlt
    exact hnot (reachSet_mono (by omega) hj)⟩

/-- C1 counterexample: on the 5×3 maze `["...#B", "A#.#.", "....."]` the
true shortest path length is 7, but `astar` returns a path of length 9:
the code never reinserts or updates a state already resident in the
frontier, so A* can commit to a suboptimal parent. -/
theorem claim_c1_counterexample :
    mkMaze ["...#B", "A#.#.", "....."] =
      .ok ⟨[['.', '.', '.', '#', 'B'], ['A', '#', '.', '#', '.'],
        ['.', '.', '.', '.', '.']], some (0, 1), some (4, 0), 5, 3⟩ ∧
    Maze.solve ⟨[['.', '.', '.', '#', 'B'], ['A', '#', '.', '#', '.'],
        ['.', '.', '.', '.', '.']], some (0, 1), some (4, 0), 5, 3⟩ "astar" =
      .ok (some [(0, 0), (1, 0), (2, 0), (2, 1), (2, 2), (3, 2), (4, 2),
        (4, 1), (4, 0)]) ∧
    ([(0, 0), (1, 0), (2, 0), (2, 1), (2, 2), (3, 2), (4, 2), (4, 1),
      (4, 0)] : List Pos).length = 9 ∧
    IsDistN ⟨[['.', '.', '.', '#', 'B'], ['A', '#', '.', '#', '.'],
        ['.', '.', '.', '.', '.']], some (0, 1), some (4, 0), 5, 3⟩
      (0, 1) (4, 0) 7 ∧
    (7 : Nat) ≠ 9 :=
  ⟨rfl, rfl, rfl,
   isDistN_of_mem (k := 6) (by decide) (by decide), by decide⟩

/-- C1 (amended): on every valid maze with a reachable goal, `bfs` returns
a path whose length is exactly the true shortest path length, while
`astar` returns a valid path ending at the goal (not necessarily a
shortest one). -/
theorem claim_c1 (m : Maze) (s e2 : Pos)
    (hv : ValidMaze m) (hs : m.startPos = some s) (he : m.endPos = some e2)
    (hr : Reach m s e2) :
    (∃ p k, Maze.solve m "bfs" = .ok (some p) ∧ IsDistN m s e2 k ∧
      p.length = k) ∧
    (∃ q, Maze.solve m "astar" = .ok (some q) ∧ q ≠ [] ∧ PathFrom m s q e2 ∧
      q.getLast? = some e2) := by
  have hso := start_open hv hs
  constructor
  · have hcore : solveCore m s e2 "bfs" =
        solveLoop m e2 "bfs" m.fuel (.queue [.root s 0 (manhattan s e2)]) [] := rfl
    have hinit : GInv m s e2 (.queue [.root s 0 (manhattan s e2)]) [] :=
      ginv_init m s e2 (.queue []) 0 (manhattan s e2) rfl
    have hqinit : QInv m s [.root s 0 (manhattan s e2)] [] := by
      refine ⟨?_, ?_, ?_, ?_, ?_⟩
      · simp
      · intro a ha b hb
        rw [List.mem_singleton] at ha hb
        subst ha
        subst hb
        exact Nat.le_succ _
      · intro nn hn
        rw [List.mem_singleton] at hn
        subst hn
        exact isDistN_self m s
      · intro nn hn
        rw [List.mem_singleton] at hn
        subst hn
        rfl
      · intro t k hd hlow
        have := hlow _ (List.mem_singleton.2 rfl)
        exact absurd this (by simp [Node.cost])
    have hbound : m.height * m.width + 1 ≤ m.fuel + ([] : List Pos).length := by
      rw [fuel_eq hv]
      simp
    obtain ⟨p, ex', k, hloop, hdist, hlen⟩ :=
      bfsLoop hv hso hr m.fuel _ [] hinit hqinit hbound
    refine ⟨p, k, ?_, hdist, hlen⟩
    rw [solve_eq_core "bfs" hs he, hcore, hloop]
    rfl
  · obtain ⟨r, ex, hloop, hdich⟩ :=
      @solveCore_master m s e2 "astar" (.prio [] 0) hv hso rfl
    rcases hdich with ⟨rfl, hiff, hnot⟩ | ⟨q, nd, rfl, hok, hst, hcells, -, -⟩
    · exact absurd ((hiff e2).2 hr) hnot
    · have hpath : PathFrom m s q e2 := by
        rw [hcells, ← hst]
        exact chainOk_path hok
      have hne : q ≠ [] := by
        intro hnil
        rw [hnil] at hpath
        exact markers_ne hv hs he hpath
      refine ⟨q, ?_, hne, hpath, pathFrom_last hpath hne⟩
      rw [solve_eq_core "astar" hs he, hloop]
      rfl

/-- Witness for the amended C1 on the maze `["A.B"]`. -/
theorem claim_c1_witness :
    (∃ p k, Maze.solve ⟨[['A', '.', 'B']], some (0, 0), some (2, 0), 3, 1⟩
        "bfs" = .ok (some p) ∧
      IsDistN ⟨[['A', '.', 'B']], some (0, 0), some (2, 0), 3, 1⟩
        (0, 0) (2, 0) k ∧ p.length = k) ∧
    (∃ q, Maze.solve ⟨[['A', '.', 'B']], some (0, 0), some (2, 0), 3, 1⟩
        "astar" = .ok (some q) ∧ q ≠ [] ∧
      PathFrom ⟨[['A', '.', 'B']], some (0, 0), some (2, 0), 3, 1⟩
        (0, 0) q (2, 0) ∧ q.getLast? = some (2, 0)) :=
  claim_c1 ⟨[['A', '.', 'B']], some (0, 0), some (2, 0), 3, 1⟩ (0, 0) (2, 0)
    (by decide) rfl rfl ⟨2, by decide⟩

end MazeLab
